import Mathlib

/-!
# SpaceGraph — verification of the natural-language specification

A shallow embedding of the SpaceGraph repository (Rust) in Lean 4, together
with theorems settling the frozen claims about it.

Conventions of the embedding:
* `std::time::Instant` and `Duration` are modelled as `Nat` (milliseconds);
  `Instant::duration_since` / `Instant - Duration` become truncated `Nat`
  subtraction.
* `HashMap` / `HashSet` are modelled as association lists / duplicate-free
  lists; `insert` replaces the first binding or appends, `remove` erases the
  first binding.  Iteration order of a `HashMap` is unspecified in Rust, the
  list order is one admissible order.
* Rust `u64` counters that can wrap (`wrapping_add`) advance modulo `2 ^ 64`.
* `Vec3` position/velocity *values* are floating point and irrelevant to every
  claim; only the key sets of the `positions` / `velocities` maps are kept.
* Filesystem access (`Path::exists` / `canonicalize`, `stat`) is modelled by
  an explicit environment argument.
-/

namespace SpaceGraph

/-- `NodeId` — newtype over `String` (spacegraph-core/src/lib.rs). -/
abbrev NodeId := String

/-- `FileKind` (spacegraph-core/src/lib.rs). -/
inductive FileKind where
  | regular | dir | socket | pipe | device | unknown
deriving DecidableEq, Repr

/-- `Node` (spacegraph-core/src/lib.rs). -/
inductive Node where
  | process (pid ppid : Int) (exe cmdline : String) (uid : Nat)
  | file (path : String) (inode : Nat) (kind : FileKind)
  | user (uid : Nat) (name : String)
deriving DecidableEq, Repr

/-- `EdgeKind` (spacegraph-core/src/lib.rs). -/
inductive EdgeKind where
  | opens (fd : Int) (mode : String)
  | execs
  | runsAs
deriving DecidableEq, Repr

/-- `Edge` (spacegraph-core/src/lib.rs).  The Rust fields `from` / `to` are
named `src` / `dst` here because `from` is a Lean keyword. -/
structure Edge where
  src : NodeId
  dst : NodeId
  kind : EdgeKind
deriving DecidableEq, Repr

/-- `Delta` (spacegraph-core/src/lib.rs). -/
inductive Delta where
  | batchBegin (id : Nat)
  | batchEnd (id : Nat)
  | upsertNode (id : NodeId) (node : Node)
  | removeNode (id : NodeId)
  | upsertEdge (edge : Edge)
  | removeEdge (edge : Edge)
deriving DecidableEq, Repr

/-- `id_process` (spacegraph-core/src/lib.rs). -/
def id_process (node_id : String) (pid : Int) : NodeId :=
  node_id ++ ":process:pid:" ++ toString pid

/-- `id_user` (spacegraph-core/src/lib.rs). -/
def id_user (node_id : String) (uid : Nat) : NodeId :=
  node_id ++ ":user:" ++ toString uid

/-- `id_file` (spacegraph-core/src/lib.rs). -/
def id_file (node_id : String) (path : String) : NodeId :=
  node_id ++ ":file:" ++ path

/-! ## Association-list model of `HashMap` -/

section AssocOps

variable {κ : Type} {ν : Type} [DecidableEq κ]

/-- `HashMap::get` — first binding of the key. -/
def lookupA : List (κ × ν) → κ → Option ν
  | [], _ => none
  | (k', v) :: rest, k => if k' = k then some v else lookupA rest k

/-- `HashMap::insert` — replace the existing binding, else append. -/
def setA : List (κ × ν) → κ → ν → List (κ × ν)
  | [], k, v => [(k, v)]
  | (k', v') :: rest, k, v =>
      if k' = k then (k, v) :: rest else (k', v') :: setA rest k v

/-- `HashMap::remove` — erase the binding of the key.  (A `HashMap` holds at
most one binding per key, so erasing all matches is the same operation on
every list that actually represents a map.) -/
def eraseA (l : List (κ × ν)) (k : κ) : List (κ × ν) :=
  l.filter (fun p => p.1 ≠ k)

/-- `HashMap::contains_key`. -/
def containsA (l : List (κ × ν)) (k : κ) : Bool :=
  (lookupA l k).isSome

@[simp] theorem lookupA_nil (k : κ) : lookupA ([] : List (κ × ν)) k = none := rfl

@[simp] theorem lookupA_cons (k' k : κ) (v : ν) (rest : List (κ × ν)) :
    lookupA ((k', v) :: rest) k = if k' = k then some v else lookupA rest k := rfl

@[simp] theorem eraseA_nil (k : κ) : eraseA ([] : List (κ × ν)) k = [] := rfl

theorem lookupA_setA_self (l : List (κ × ν)) (k : κ) (v : ν) :
    lookupA (setA l k v) k = some v := by
  induction l with
  | nil => simp [setA, lookupA]
  | cons hd tl ih =>
      obtain ⟨k', v'⟩ := hd
      by_cases h : k' = k <;> simp [setA, lookupA, h, ih]

theorem lookupA_setA_ne (l : List (κ × ν)) (k k₂ : κ) (v : ν) (h : k ≠ k₂) :
    lookupA (setA l k v) k₂ = lookupA l k₂ := by
  induction l with
  | nil => simp [setA, lookupA, h]
  | cons hd tl ih =>
      obtain ⟨k', v'⟩ := hd
      by_cases hk : k' = k
      · subst hk
        simp [setA, lookupA, h]
      · simp [setA, lookupA, hk, ih]

theorem lookupA_eraseA_self (l : List (κ × ν)) (k : κ) :
    lookupA (eraseA l k) k = none := by
  induction l with
  | nil => simp [eraseA]
  | cons hd tl ih =>
      obtain ⟨k', v'⟩ := hd
      by_cases h : k' = k
      · simpa [eraseA, List.filter, h] using ih
      · simpa [eraseA, List.filter, h, lookupA] using ih

theorem lookupA_eraseA_ne (l : List (κ × ν)) (k k₂ : κ) (h : k ≠ k₂) :
    lookupA (eraseA l k) k₂ = lookupA l k₂ := by
  induction l with
  | nil => simp [eraseA]
  | cons hd tl ih =>
      obtain ⟨k', v'⟩ := hd
      by_cases hk : k' = k
      · subst hk
        simp only [eraseA, List.filter_cons] at ih ⊢
        simp only [ne_eq, decide_not, decide_True, Bool.not_true, lookupA_cons,
          if_neg h, decide_eq_true_eq]
        simpa [eraseA] using ih
      · by_cases hk₂ : k' = k₂
        · subst hk₂
          simp [eraseA, List.filter_cons, hk, lookupA]
        · simp only [eraseA, List.filter_cons] at ih ⊢
          simp only [ne_eq, hk, decide_not, decide_eq_true_eq, Bool.not_false,
            lookupA_cons, if_neg hk₂]
          simpa [eraseA, lookupA, hk₂] using ih

end AssocOps

/-! ## GraphModel (spacegraph-viewer/src/graph/model.rs) -/

/-- `EdgeKindClass` (model.rs). -/
inductive EdgeKindClass where
  | opens | execs | runsAs
deriving DecidableEq, Repr

/-- `EdgeKindClass::from_kind` (model.rs). -/
def EdgeKindClass.from_kind : EdgeKind → EdgeKindClass
  | .opens _ _ => .opens
  | .execs => .execs
  | .runsAs => .runsAs

/-- `AggEdgeKey` (model.rs).  Rust fields `from` / `to` are `src` / `dst`. -/
structure AggEdgeKey where
  src : NodeId
  dst : NodeId
  cls : EdgeKindClass
deriving DecidableEq, Repr

/-- `AggEdgeKey::new` (model.rs). -/
def AggEdgeKey.new (edge : Edge) : AggEdgeKey :=
  { src := edge.src, dst := edge.dst, cls := EdgeKindClass.from_kind edge.kind }

/-- `EdgeStats` (model.rs). -/
structure EdgeStats where
  count : Nat
  first_ts : Nat
  last_ts : Nat
deriving DecidableEq, Repr

/-- `AggEdge` (model.rs). -/
structure AggEdge where
  key : AggEdgeKey
  stats : EdgeStats
  last_kind : EdgeKind
  live_count : Nat
deriving DecidableEq, Repr

/-- `GraphModel` (model.rs). -/
structure GraphModel where
  nodes : List (NodeId × Node)
  edges : List Edge
  last_seen : List (NodeId × Nat)
  adj : List (NodeId × List Edge)
  agg : List (AggEdgeKey × AggEdge)
deriving DecidableEq, Repr

namespace GraphModel

/-- `GraphModel::default()`. -/
def empty : GraphModel :=
  { nodes := [], edges := [], last_seen := [], adj := [], agg := [] }

/-- Incident-edge list of a node: `self.adj.get(id)` with `[]` for a
missing key. -/
def adjList (m : GraphModel) (id : NodeId) : List Edge :=
  (lookupA m.adj id).getD []

/-- `GraphModel::insert_adj` (model.rs): `adj.entry(k).or_default().push(e)`
for both endpoints. -/
def pushAdj (adj : List (NodeId × List Edge)) (k : NodeId) (e : Edge) :
    List (NodeId × List Edge) :=
  match lookupA adj k with
  | some lst => setA adj k (lst ++ [e])
  | none => adj ++ [(k, [e])]

def insert_adj (m : GraphModel) (e : Edge) : GraphModel :=
  { m with adj := pushAdj (pushAdj m.adj e.src e) e.dst e }

/-- `GraphModel::remove_adj_entry` (model.rs): retain every edge different
from `e`, dropping the key when the list empties. -/
def removeAdjEntry (adj : List (NodeId × List Edge)) (k : NodeId) (e : Edge) :
    List (NodeId × List Edge) :=
  match lookupA adj k with
  | none => adj
  | some lst =>
      let lst' := lst.filter (fun x => x ≠ e)
      if lst' = [] then eraseA adj k else setA adj k lst'

/-- `GraphModel::remove_adj` (model.rs). -/
def remove_adj (m : GraphModel) (e : Edge) : GraphModel :=
  { m with adj := removeAdjEntry (removeAdjEntry m.adj e.src e) e.dst e }

/-- The aggregation-map transform of `GraphModel::update_agg_on_upsert`
(model.rs): `agg.entry(key).or_insert_with(zero-entry)`, then bump `count`,
`last_ts`, `last_kind`, and — when the raw edge was newly inserted —
`live_count`. -/
def aggUpsert (agg : List (AggEdgeKey × AggEdge)) (e : Edge) (now : Nat)
    (inserted : Bool) : List (AggEdgeKey × AggEdge) :=
  let key := AggEdgeKey.new e
  let entry :=
    match lookupA agg key with
    | some a => a
    | none =>
        { key := key
          stats := { count := 0, first_ts := now, last_ts := now }
          last_kind := e.kind
          live_count := 0 }
  let entry :=
    { entry with
      stats := { entry.stats with count := entry.stats.count + 1, last_ts := now }
      last_kind := e.kind
      live_count := entry.live_count + (if inserted then 1 else 0) }
  setA agg key entry

/-- `GraphModel::update_agg_on_upsert` (model.rs). -/
def update_agg_on_upsert (m : GraphModel) (e : Edge) (now : Nat)
    (inserted : Bool) : GraphModel :=
  { m with agg := aggUpsert m.agg e now inserted }

/-- The aggregation-map transform of `GraphModel::update_agg_on_remove`
(model.rs): decrement `live_count` of the entry (if any) and delete it when
the count reaches 0. -/
def aggRemove (agg : List (AggEdgeKey × AggEdge)) (e : Edge) :
    List (AggEdgeKey × AggEdge) :=
  let key := AggEdgeKey.new e
  match lookupA agg key with
  | none => agg
  | some entry =>
      let entry := { entry with live_count := entry.live_count - 1 }
      if entry.live_count = 0 then eraseA agg key
      else setA agg key entry

/-- `GraphModel::update_agg_on_remove` (model.rs). -/
def update_agg_on_remove (m : GraphModel) (e : Edge) : GraphModel :=
  { m with agg := aggRemove m.agg e }

/-- `GraphModel::upsert_node` (model.rs). -/
def upsert_node (m : GraphModel) (id : NodeId) (node : Node) (now : Nat) :
    GraphModel :=
  { m with nodes := setA m.nodes id node, last_seen := setA m.last_seen id now }

/-- `GraphModel::upsert_edge` (model.rs).  `HashSet::insert` returns whether
the edge was newly inserted. -/
def upsert_edge (m : GraphModel) (e : Edge) (now : Nat) : GraphModel :=
  let inserted := e ∉ m.edges
  let m := if inserted then insert_adj { m with edges := m.edges ++ [e] } e else m
  update_agg_on_upsert m e now inserted

/-- `GraphModel::remove_edge` (model.rs); also returns the `bool` result. -/
def remove_edge (m : GraphModel) (e : Edge) : GraphModel × Bool :=
  if e ∈ m.edges then
    (update_agg_on_remove (remove_adj { m with edges := m.edges.filter (· ≠ e) } e) e,
     true)
  else (m, false)

/-- The loop body of `GraphModel::remove_node`: `remove_edge` over the cloned
incident list, collecting the edges actually removed. -/
def removeEdgesLoop : GraphModel → List Edge → GraphModel × List Edge
  | m, [] => (m, [])
  | m, e :: rest =>
      let r := remove_edge m e
      let r' := removeEdgesLoop r.1 rest
      (r'.1, if r.2 then e :: r'.2 else r'.2)

/-- `GraphModel::remove_node` (model.rs); returns the removed incident
edges. -/
def remove_node (m : GraphModel) (id : NodeId) : GraphModel × List Edge :=
  let m := { m with nodes := eraseA m.nodes id, last_seen := eraseA m.last_seen id }
  let r := removeEdgesLoop m (m.adjList id)
  ({ r.1 with adj := eraseA r.1.adj id }, r.2)

/-- `GraphModel::edges_for_node` (model.rs): the adjacency list filtered by
membership in the raw edge set. -/
def edges_for_node (m : GraphModel) (id : NodeId) : List Edge :=
  (m.adjList id).filter (· ∈ m.edges)

/-- `GraphModel::neighbors` (model.rs): opposite endpoint of each incident
edge. -/
def neighbors (m : GraphModel) (id : NodeId) : List NodeId :=
  (m.edges_for_node id).map (fun e => if e.src = id then e.dst else e.src)

/-- `GraphModel::rebuild_indices` (model.rs). -/
def rebuild_indices (m : GraphModel) (now : Nat) : GraphModel :=
  let m := { m with adj := [], agg := [] }
  m.edges.foldl
    (fun acc e => update_agg_on_upsert (insert_adj acc e) e now true) m

/-- `Vec<(NodeId, Node)>::into_iter().collect::<HashMap<_,_>>()` — later
bindings overwrite earlier ones. -/
def collectNodes (l : List (NodeId × Node)) : List (NodeId × Node) :=
  l.foldl (fun acc p => setA acc p.1 p.2) []

/-- `Vec<Edge>::into_iter().collect::<HashSet<_>>()` — duplicates coalesce. -/
def collectEdges (l : List Edge) : List Edge :=
  l.foldl (fun acc e => if e ∈ acc then acc else acc ++ [e]) []

/-- `GraphModel::load_snapshot` (model.rs). -/
def load_snapshot (m : GraphModel) (nodes : List (NodeId × Node))
    (edges : List Edge) (now : Nat) : GraphModel :=
  let nodes := collectNodes nodes
  let m := { m with
    nodes := nodes
    edges := collectEdges edges
    last_seen := nodes.map (fun p => (p.1, now)) }
  rebuild_indices m now

/-- `GraphModel::agg_edge_count` (model.rs). -/
def agg_edge_count (m : GraphModel) : Nat := m.agg.length

end GraphModel

/-! ## Viewer state (spacegraph-viewer/src/graph/state.rs, timeline.rs) -/

/-- `TimelineEvtKind` (timeline.rs). -/
inductive TimelineEvtKind where
  | nodeUpsert
  | nodeRemove
  | edgeUpsert
  | edgeRemove
  | batchBegin (id : Nat)
  | batchEnd (id : Nat)
deriving DecidableEq, Repr

/-- `TimelineEvt` (timeline.rs). -/
structure TimelineEvt where
  ts : Nat
  kind : TimelineEvtKind
  a : Option NodeId
  b : Option NodeId
  edge_kind : Option EdgeKind
deriving DecidableEq, Repr

/-- `NodeLife` (timeline.rs). -/
structure NodeLife where
  first_seen : Nat
  last_seen : Nat
  removed_at : Option Nat
deriving DecidableEq, Repr

/-- `BatchSpan` (timeline.rs). -/
structure BatchSpan where
  id : Nat
  start : Nat
  ends : Option Nat
deriving DecidableEq, Repr

/-- `TimelineState` (state.rs).  The floating-point `scale` and
`scrub_seconds` fields and the `pause`/`frozen_now` pair drive only
`effective_now`, which every claim supplies as an explicit `now`; they are
not modelled. -/
structure TimelineState where
  window : Nat
  events : List TimelineEvt
  max_events : Nat
  node_life : List (NodeId × NodeLife)
  batch_spans : List BatchSpan
deriving DecidableEq, Repr

namespace TimelineState

/-- `TimelineState::window_start` (timeline.rs); `Instant - Duration` on
`Nat` truncates at zero. -/
def window_start (t : TimelineState) (now : Nat) : Nat := now - t.window

/-- `TimelineState::record_node_upsert` (timeline.rs). -/
def record_node_upsert (t : TimelineState) (id : NodeId) (ts : Nat) :
    TimelineState :=
  let entry := (lookupA t.node_life id).getD
    { first_seen := ts, last_seen := ts, removed_at := none }
  let entry := if ts < entry.first_seen then { entry with first_seen := ts } else entry
  let entry := if ts > entry.last_seen then { entry with last_seen := ts } else entry
  let entry :=
    if (entry.removed_at.map (fun removed => decide (ts ≥ removed))).getD false then
      { entry with removed_at := none }
    else entry
  { t with node_life := setA t.node_life id entry }

/-- `TimelineState::record_node_remove` (timeline.rs). -/
def record_node_remove (t : TimelineState) (id : NodeId) (ts : Nat) :
    TimelineState :=
  let entry := (lookupA t.node_life id).getD
    { first_seen := ts, last_seen := ts, removed_at := some ts }
  let entry := if ts < entry.first_seen then { entry with first_seen := ts } else entry
  let entry := if ts > entry.last_seen then { entry with last_seen := ts } else entry
  let entry := { entry with removed_at := some ts }
  { t with node_life := setA t.node_life id entry }

/-- `TimelineState::record_batch_begin` (timeline.rs). -/
def record_batch_begin (t : TimelineState) (id : Nat) (ts : Nat) :
    TimelineState :=
  { t with batch_spans := t.batch_spans ++ [{ id := id, start := ts, ends := none }] }

/-- `TimelineState::record_batch_end` (timeline.rs): fill the `end` of the
most recent open span with this id (`iter_mut().rev().find(...)`); realised
by walking the reversed list and fixing the first hit. -/
def fillBatchEndRev (id ts : Nat) : List BatchSpan → List BatchSpan
  | [] => []
  | s :: rest =>
      if s.id = id ∧ s.ends = none then { s with ends := some ts } :: rest
      else s :: fillBatchEndRev id ts rest

def record_batch_end (t : TimelineState) (id : Nat) (ts : Nat) : TimelineState :=
  { t with batch_spans := (fillBatchEndRev id ts t.batch_spans.reverse).reverse }

/-- First `while` loop of `TimelineState::trim` (timeline.rs): pop from the
front while the buffer is over the cap. -/
def dropExcess (events : List TimelineEvt) (cap : Nat) : List TimelineEvt :=
  events.drop (events.length - cap)

/-- `TimelineState::trim` (timeline.rs). -/
def trim (t : TimelineState) (now : Nat) : TimelineState :=
  let events := dropExcess t.events t.max_events
  let ws := t.window_start now
  let events := events.dropWhile (fun e => e.ts < ws)
  let batch_spans := t.batch_spans.dropWhile
    (fun s => match s.ends with | some e => e < ws | none => false)
  { t with events := events, batch_spans := batch_spans }

/-- `TimelineState::node_life_interval` (timeline.rs). -/
def node_life_interval (t : TimelineState) (id : NodeId) (now : Nat) :
    Option (Nat × Nat) :=
  match lookupA t.node_life id with
  | none => none
  | some life =>
      let ws := t.window_start now
      let start := if life.first_seen < ws then ws else life.first_seen
      let e := life.removed_at.getD now
      let e := if e > now then now else e
      if e ≤ start then none else some (start, e)

end TimelineState

/-- `SpatialState` (state.rs).  `positions` / `velocities` keep only the key
sets (the `Vec3` values are floating point and no claim depends on them);
`active_vis_cache` / `progressive_cursor` belong to the progressive layout,
which no claim quantifies over, and are omitted. -/
structure SpatialState where
  positions : List NodeId
  velocities : List NodeId
  in_batch : Bool
  touched_nodes : List NodeId
  touched_edges : List Edge
  glow_nodes : List (NodeId × Nat)
  glow_edges : List (Edge × Nat)
  last_batch_id : Option Nat
  dirty_layout : Bool
deriving DecidableEq, Repr

/-- `UiState` (state.rs), restricted to the fields the claims touch. -/
structure UiState where
  filter : String
  focus : Option NodeId
  focus_hops : Nat
  hovered : Option NodeId
  selected : Option NodeId
  selected_a : Option NodeId
  selected_b : Option NodeId
deriving DecidableEq, Repr

/-- `CfgState` (state.rs), restricted to the fields the claims touch (the
remaining fields are floating-point layout constants). -/
structure CfgState where
  glow_duration : Nat
  max_visible_nodes : Nat
  gc_enabled : Bool
  gc_ttl : Nat
  gc_interval : Nat
deriving DecidableEq, Repr

/-- `PerfState` (state.rs), restricted to `gc_last_run`. -/
structure PerfState where
  gc_last_run : Nat
deriving DecidableEq, Repr

/-- `GraphState` (state.rs). -/
structure GraphState where
  model : GraphModel
  spatial : SpatialState
  timeline : TimelineState
  ui : UiState
  cfg : CfgState
  perf : PerfState
  needs_redraw : Bool
deriving DecidableEq, Repr

namespace GraphState

/-- `GraphState::default()` (state.rs), times in milliseconds. -/
def default : GraphState :=
  { model := GraphModel.empty
    spatial :=
      { positions := []
        velocities := []
        in_batch := false
        touched_nodes := []
        touched_edges := []
        glow_nodes := []
        glow_edges := []
        last_batch_id := none
        dirty_layout := true }
    timeline :=
      { window := 60000
        events := []
        max_events := 20000
        node_life := []
        batch_spans := [] }
    ui :=
      { filter := ""
        focus := none
        focus_hops := 2
        hovered := none
        selected := none
        selected_a := none
        selected_b := none }
    cfg :=
      { glow_duration := 900
        max_visible_nodes := 1200
        gc_enabled := true
        gc_ttl := 30000
        gc_interval := 1000 }
    perf := { gc_last_run := 0 }
    needs_redraw := true }

/-- `GraphState::push_timeline_at` (timeline.rs). -/
def push_timeline_at (st : GraphState) (ts : Nat) (kind : TimelineEvtKind)
    (a b : Option NodeId) (ek : Option EdgeKind) : GraphState :=
  let evt : TimelineEvt := { ts := ts, kind := kind, a := a, b := b, edge_kind := ek }
  let tl :=
    match kind with
    | .nodeUpsert =>
        match a with
        | some id => st.timeline.record_node_upsert id ts
        | none => st.timeline
    | .nodeRemove =>
        match a with
        | some id => st.timeline.record_node_remove id ts
        | none => st.timeline
    | .batchBegin id => st.timeline.record_batch_begin id ts
    | .batchEnd id => st.timeline.record_batch_end id ts
    | _ => st.timeline
  { st with timeline := { tl with events := tl.events ++ [evt] } }

/-- `GraphState::touch_node_at` (state.rs). -/
def touch_node_at (st : GraphState) (id : NodeId) (ts : Nat) : GraphState :=
  { st with model := { st.model with last_seen := setA st.model.last_seen id ts } }

/-- `GraphState::apply_delta` (state.rs); `ts` is the `Instant::now()`
captured on entry. -/
def apply_delta (st : GraphState) (ts : Nat) : Delta → GraphState
  | .batchBegin id =>
      let st := { st with spatial :=
        { st.spatial with
          in_batch := true
          last_batch_id := some id
          touched_nodes := []
          touched_edges := [] } }
      st.push_timeline_at ts (.batchBegin id) none none none
  | .batchEnd id =>
      let until_ := ts + st.cfg.glow_duration
      let st := { st with spatial :=
        { st.spatial with
          in_batch := false
          glow_nodes := st.spatial.touched_nodes.foldl
            (fun g idn => setA g idn until_) st.spatial.glow_nodes
          glow_edges := st.spatial.touched_edges.foldl
            (fun g e => setA g e until_) st.spatial.glow_edges
          touched_nodes := []
          touched_edges := [] } }
      let st := st.push_timeline_at ts (.batchEnd id) none none none
      { st with needs_redraw := true }
  | .upsertNode id node =>
      let st := { st with
        model := st.model.upsert_node id node ts
        spatial := { st.spatial with dirty_layout := true } }
      let st := st.push_timeline_at ts .nodeUpsert (some id) none none
      let st :=
        if st.spatial.in_batch then
          { st with spatial :=
            { st.spatial with touched_nodes := st.spatial.touched_nodes ++ [id] } }
        else
          { st with spatial :=
            { st.spatial with
              glow_nodes := setA st.spatial.glow_nodes id (ts + st.cfg.glow_duration) } }
      { st with needs_redraw := true }
  | .removeNode id =>
      let model' := (st.model.remove_node id).1
      let removed_edges := (st.model.remove_node id).2
      let st := { st with
        model := model'
        spatial := { st.spatial with
          positions := st.spatial.positions.filter (· ≠ id)
          velocities := st.spatial.velocities.filter (· ≠ id)
          glow_nodes := eraseA st.spatial.glow_nodes id
          glow_edges := removed_edges.foldl (fun g e => eraseA g e) st.spatial.glow_edges
          touched_edges := removed_edges.foldl
            (fun tch e => tch.filter (· ≠ e)) st.spatial.touched_edges } }
      let st := { st with ui :=
        { st.ui with
          focus := if st.ui.focus = some id then none else st.ui.focus
          selected := if st.ui.selected = some id then none else st.ui.selected
          selected_a := if st.ui.selected_a = some id then none else st.ui.selected_a
          selected_b := if st.ui.selected_b = some id then none else st.ui.selected_b
          hovered := if st.ui.hovered = some id then none else st.ui.hovered } }
      let st := st.push_timeline_at ts .nodeRemove (some id) none none
      let st := { st with spatial := { st.spatial with dirty_layout := true } }
      let st :=
        if st.spatial.in_batch then
          { st with spatial :=
            { st.spatial with touched_nodes := st.spatial.touched_nodes ++ [id] } }
        else st
      { st with needs_redraw := true }
  | .upsertEdge edge =>
      let st := { st with model := st.model.upsert_edge edge ts }
      let st := st.touch_node_at edge.src ts
      let st := st.touch_node_at edge.dst ts
      let st := { st with spatial := { st.spatial with dirty_layout := true } }
      let st := st.push_timeline_at ts .edgeUpsert (some edge.src) (some edge.dst)
        (some edge.kind)
      let st :=
        if st.spatial.in_batch then
          { st with spatial :=
            { st.spatial with
              touched_edges := st.spatial.touched_edges ++ [edge]
              touched_nodes := st.spatial.touched_nodes ++ [edge.src, edge.dst] } }
        else
          { st with spatial :=
            { st.spatial with
              glow_edges := setA st.spatial.glow_edges edge (ts + st.cfg.glow_duration) } }
      { st with needs_redraw := true }
  | .removeEdge edge =>
      let st := { st with
        model := (st.model.remove_edge edge).1
        spatial := { st.spatial with glow_edges := eraseA st.spatial.glow_edges edge } }
      let st := st.push_timeline_at ts .edgeRemove (some edge.src) (some edge.dst)
        (some edge.kind)
      { st with needs_redraw := true }

/-- `GraphState::apply` for `Incoming::Snapshot` (state.rs):
`load_snapshot`, a node-upsert life event per id, `mark_dirty_all`. -/
def apply_snapshot (st : GraphState) (ts : Nat) (nodes : List (NodeId × Node))
    (edges : List Edge) : GraphState :=
  let model := st.model.load_snapshot nodes edges ts
  let tl := model.nodes.foldl
    (fun t p => TimelineState.record_node_upsert t p.1 ts) st.timeline
  { st with
    model := model
    timeline := tl
    spatial := { st.spatial with dirty_layout := true }
    needs_redraw := true }

/-- One incoming message, as `GraphState::apply` dispatches it. -/
inductive Inc where
  | snapshot (nodes : List (NodeId × Node)) (edges : List Edge)
  | event (d : Delta)
deriving DecidableEq, Repr

/-- Apply one `Inc` at time `ts`. -/
def applyInc (st : GraphState) : Nat × Inc → GraphState
  | (ts, .snapshot nodes edges) => st.apply_snapshot ts nodes edges
  | (ts, .event d) => st.apply_delta ts d

/-- Apply a whole trace of incoming messages. -/
def applyTrace (st : GraphState) : List (Nat × Inc) → GraphState
  | [] => st
  | op :: rest => (st.applyInc op).applyTrace rest

end GraphState

/-! ## Visibility (spacegraph-viewer/src/graph/layout.rs) -/

/-- `str::trim` on the character list (the core `String.trim` is an
`@[extern]` position loop that the kernel cannot reduce). -/
def trimL (l : List Char) : List Char :=
  ((l.dropWhile Char.isWhitespace).reverse.dropWhile Char.isWhitespace).reverse

/-- `str::trim`. -/
def trimS (s : String) : String := ⟨trimL s.toList⟩

/-- `str::to_lowercase`. -/
def lowerS (s : String) : String := ⟨s.toList.map Char.toLower⟩

/-- Case-insensitive substring test (`str::contains` after `to_lowercase`). -/
def containsSub (s sub : String) : Bool :=
  s.toList.tails.any (fun t => sub.toList.isPrefixOf t)

namespace GraphState

/-- `GraphState::passes_filter` (layout.rs). -/
def passes_filter (st : GraphState) (id : NodeId) (n : Node) : Bool :=
  if trimS st.ui.filter = "" then true
  else
    let f := lowerS st.ui.filter
    let id_ok := containsSub (lowerS id) f
    let node_ok :=
      match n with
      | .process _ _ exe cmdline _ =>
          containsSub (lowerS cmdline) f || containsSub (lowerS exe) f
      | .file path _ _ => containsSub (lowerS path) f
      | .user _ name => containsSub (lowerS name) f
    id_ok || node_ok

/-- Inner `for nb in self.model.neighbors(&cur)` loop of
`visible_set_capped` (layout.rs): conditional insert + cap check per
neighbor; the `Bool` records whether the `break` fired. -/
def processNbrs (maxVis d : Nat) :
    List NodeId → List NodeId → List (NodeId × Nat) →
    List NodeId × List (NodeId × Nat) × Bool
  | [], vis, acc => (vis, acc, false)
  | nb :: rest, vis, acc =>
      let vis' := if nb ∈ vis then vis else vis ++ [nb]
      let acc' := if nb ∈ vis then acc else acc ++ [(nb, d + 1)]
      if maxVis ≤ vis'.length then (vis', acc', true)
      else processNbrs maxVis d rest vis' acc'

/-- The `while let Some((cur, d)) = q.pop_front()` loop of
`visible_set_capped` (layout.rs).  The loop terminates because every queue
push accompanies the insertion of a fresh edge endpoint into `vis`; `fuel`
is an upper bound on the number of iterations, proven never to be exhausted
(`bfsAux_isSome`), with `none` flagging exhaustion. -/
def bfsAux (m : GraphModel) (maxVis hops : Nat) :
    Nat → List NodeId → List (NodeId × Nat) → Option (List NodeId)
  | 0, _, _ => none
  | fuel + 1, vis, q =>
      match q with
      | [] => some vis
      | (cur, d) :: rest =>
          if hops ≤ d then bfsAux m maxVis hops fuel vis rest
          else
            let r := processNbrs maxVis d (m.neighbors cur) vis []
            if r.2.2 then some r.1
            else if maxVis ≤ r.1.length then some r.1
            else bfsAux m maxVis hops fuel r.1 (rest ++ r.2.1)

/-- All endpoints occurring in the raw edge set; every BFS insertion comes
from this list. -/
def edgeEndpoints (m : GraphModel) : List NodeId :=
  m.edges.foldr (fun e acc => e.src :: e.dst :: acc) []

/-- The focus BFS of `visible_set_capped` (layout.rs). -/
def bfsFrom (m : GraphModel) (maxVis hops : Nat) (focus : NodeId) :
    List NodeId :=
  (bfsAux m maxVis hops ((edgeEndpoints m).length + 2) [focus] [(focus, 0)]).getD
    [focus]

/-- Lexicographic char-list comparison (`a ≤ b`), the order
`String::cmp` induces. -/
def leL : List Char → List Char → Bool
  | [], _ => true
  | _ :: _, [] => false
  | a :: as, b :: bs =>
      if a.toNat < b.toNat then true
      else if b.toNat < a.toNat then false
      else leL as bs

/-- `String` comparison by characters. -/
def leS (a b : NodeId) : Bool := leL a.data b.data

/-- Stable insertion of an id into an already-sorted list (before the
first strictly greater element). -/
def insertSorted (x : NodeId) : List NodeId → List NodeId
  | [] => [x]
  | y :: ys => if leS y x then y :: insertSorted x ys else x :: y :: ys

/-- `v.sort_by(|a, b| a.0.cmp(&b.0))` — stable lexicographic sort of the
ids (insertion sort, extensionally the stable sort `sort_by` performs). -/
def sortIds (l : List NodeId) : List NodeId :=
  l.foldr insertSorted []

/-- `GraphState::visible_set_capped` (layout.rs). -/
def visible_set_capped (st : GraphState) : List NodeId :=
  let base := (st.model.nodes.filter
    (fun p => st.passes_filter p.1 p.2)).map Prod.fst
  let base :=
    match st.ui.focus with
    | none => base
    | some focus =>
        let base := if focus ∈ base then base else base ++ [focus]
        let hops := max st.ui.focus_hops 1
        let vis := bfsFrom st.model st.cfg.max_visible_nodes hops focus
        vis.filter (fun v => v ∈ base)
  if st.cfg.max_visible_nodes < base.length then
    (sortIds base).take st.cfg.max_visible_nodes
  else base

end GraphState

/-! ## GC (spacegraph-viewer/src/graph/gc.rs) -/

namespace GraphState

/-- The degree map built at the top of `tick_gc` (gc.rs). -/
def degreeMap (edges : List Edge) : List (NodeId × Nat) :=
  edges.foldl
    (fun deg e =>
      let deg := setA deg e.src ((lookupA deg e.src).getD 0 + 1)
      setA deg e.dst ((lookupA deg e.dst).getD 0 + 1))
    []

/-- `matches!(node, Node::File { .. })`. -/
def isFileNode : Node → Bool
  | .file _ _ _ => true
  | _ => false

/-- The `to_remove` list of `tick_gc` (gc.rs). -/
def gcToRemove (st : GraphState) (now : Nat) : List NodeId :=
  let degree := degreeMap st.model.edges
  (st.model.nodes.filter
    (fun p =>
      ((lookupA degree p.1).getD 0 = 0 : Bool) &&
      isFileNode p.2 &&
      decide (st.cfg.gc_ttl ≤ now - ((lookupA st.model.last_seen p.1).getD now)))).map
    Prod.fst

/-- The per-id eviction body of `tick_gc` (gc.rs). -/
def gcEvictOne (st : GraphState) (id : NodeId) : GraphState :=
  let st := { st with
    model := { st.model with
      nodes := eraseA st.model.nodes id
      last_seen := eraseA st.model.last_seen id }
    spatial := { st.spatial with
      positions := st.spatial.positions.filter (· ≠ id)
      velocities := st.spatial.velocities.filter (· ≠ id)
      glow_nodes := eraseA st.spatial.glow_nodes id } }
  { st with ui := { st.ui with
      focus := if st.ui.focus = some id then none else st.ui.focus
      selected := if st.ui.selected = some id then none else st.ui.selected
      hovered := if st.ui.hovered = some id then none else st.ui.hovered } }

/-- The tail of `tick_gc` after the `gc_last_run` update (gc.rs). -/
def gcRun (st : GraphState) (now : Nat) : GraphState :=
  if st.gcToRemove now = [] then st
  else { (st.gcToRemove now).foldl gcEvictOne st with needs_redraw := true }

/-- `GraphState::tick_gc` (gc.rs). -/
def tick_gc (st : GraphState) (now : Nat) : GraphState :=
  if !st.cfg.gc_enabled then st
  else if now - st.perf.gc_last_run < st.cfg.gc_interval then st
  else gcRun { st with perf := { gc_last_run := now } } now

end GraphState

/-! ## FsWatcher coalescer (spacegraph-agent/src/watch_fs.rs) -/

namespace watch_fs

/-- `Action` (watch_fs.rs). -/
inductive Action where
  | upsert | remove
deriving DecidableEq, Repr

/-- The coalesce rule (watch_fs.rs, `pending.entry(path).and_modify(...)
.or_insert(action)`). -/
def coalesce (pending : List (String × Action)) (path : String)
    (action : Action) : List (String × Action) :=
  match lookupA pending path with
  | some a =>
      let a' :=
        if a ≠ Action.remove ∧ action = Action.remove then Action.remove
        else if action = Action.upsert then Action.upsert
        else a
      setA pending path a'
  | none => pending ++ [(path, action)]

/-- Absorb a stream of classified events into the pending map. -/
def absorb (pending : List (String × Action)) :
    List (String × Action) → List (String × Action)
  | [] => pending
  | (path, action) :: rest => absorb (coalesce pending path action) rest

/-- Batch emission on a tick with non-empty pending (watch_fs.rs): one
`UpsertNode`/`RemoveNode` per entry between `BatchBegin` and `BatchEnd`;
`inodeOf` stands for the `stat` call at emit time. -/
def emitBatch (node_id : String) (batch_id : Nat) (inodeOf : String → Nat)
    (pending : List (String × Action)) : List Delta :=
  Delta.batchBegin batch_id ::
    pending.map (fun p =>
      match p.2 with
      | Action.upsert =>
          Delta.upsertNode (id_file node_id p.1)
            (Node.file p.1 (inodeOf p.1) FileKind.unknown)
      | Action.remove => Delta.removeNode (id_file node_id p.1))
    ++ [Delta.batchEnd batch_id]

end watch_fs

/-! ## PathPolicy (spacegraph-agent/src/path_policy.rs) -/

namespace path_policy

/-- A `std::path::Path`, as its component list.  `Path::components()` of an
absolute path begins with `RootDir`, encoded here by the `absolute` flag. -/
structure RPath where
  absolute : Bool
  comps : List String
deriving DecidableEq, Repr

/-- `Path::starts_with` — component-wise prefix; an absolute base only
matches an absolute path (`RootDir` is a component). -/
def startsWithP (p base : RPath) : Bool :=
  base.absolute = p.absolute && base.comps.isPrefixOf p.comps

/-- `Path::as_os_str` rendering, used by the relative-exclude comparison. -/
def osStr (p : RPath) : String :=
  (if p.absolute then "/" else "") ++ String.intercalate "/" p.comps

/-- The filesystem as `normalize_path` observes it: `Path::exists` and
`Path::canonicalize` (`none` = `Err`). -/
structure FsEnv where
  pathExists : RPath → Bool
  canon : RPath → Option RPath

/-- `normalize_path` (path_policy.rs). -/
def normalize_path (env : FsEnv) (p : RPath) : RPath :=
  if env.pathExists p then (env.canon p).getD p else p

/-- `normalize_exclude_path` (path_policy.rs). -/
def normalize_exclude_path (env : FsEnv) (p : RPath) : RPath :=
  if p.absolute then normalize_path env p else p

/-- `PathPolicy` (path_policy.rs). -/
structure PathPolicy where
  includes : List RPath
  excludes : List RPath
deriving DecidableEq, Repr

/-- `PathPolicy::normalize` (path_policy.rs). -/
def PathPolicy.normalize (env : FsEnv) (pol : PathPolicy) : PathPolicy :=
  { includes := pol.includes.map (normalize_path env)
    excludes := pol.excludes.map (normalize_exclude_path env) }

/-- `PathPolicy::is_excluded` (path_policy.rs). -/
def PathPolicy.is_excluded (env : FsEnv) (pol : PathPolicy) (p : RPath) : Bool :=
  let np := normalize_path env p
  pol.excludes.any (fun ex =>
    if ex.absolute then startsWithP np ex
    else np.comps.any (fun c => c = osStr ex))

/-- `PathPolicy::is_included` (path_policy.rs). -/
def PathPolicy.is_included (env : FsEnv) (pol : PathPolicy) (p : RPath) : Bool :=
  let np := normalize_path env p
  pol.includes.any (fun inc => startsWithP np inc)

/-- `PathPolicy::should_watch` (path_policy.rs). -/
def PathPolicy.should_watch (env : FsEnv) (pol : PathPolicy) (p : RPath) : Bool :=
  if pol.is_excluded env p then false
  else if pol.includes.isEmpty then true
  else pol.is_included env p

end path_policy

/-- The spec-side matching relation of C4, written from the claim's words:
an absolute exclude matches when the normalized path has the exclude as a
path prefix; a relative exclude matches when some path component equals the
exclude. -/
def excludeMatchesSpec (env : path_policy.FsEnv) (ex p : path_policy.RPath) : Prop :=
  if ex.absolute then
    path_policy.startsWithP (path_policy.normalize_path env p) ex = true
  else ∃ c ∈ (path_policy.normalize_path env p).comps, c = path_policy.osStr ex

/-! ## Snapshot fd flags (spacegraph-agent/src/snapshot.rs) -/

namespace snapshot

/-- `fd_mode_from_flags` (snapshot.rs): `flags & 3` (`O_ACCMODE`). -/
def fd_mode_from_flags (flags : Int) : String :=
  let m := Int.land flags 3
  if m = 0 then "r"
  else if m = 1 then "w"
  else if m = 2 then "rw"
  else "?"

/-- One digit of `i64::from_str_radix`. -/
def digitVal (radix : Nat) (c : Char) : Option Nat :=
  let v :=
    if '0' ≤ c ∧ c ≤ '9' then some (c.toNat - '0'.toNat)
    else if 'a' ≤ c ∧ c ≤ 'z' then some (c.toNat - 'a'.toNat + 10)
    else if 'A' ≤ c ∧ c ≤ 'Z' then some (c.toNat - 'A'.toNat + 10)
    else none
  match v with
  | some d => if d < radix then some d else none
  | none => none

def parseDigits (radix : Nat) : List Char → Option Nat → Option Nat
  | [], acc => acc
  | c :: rest, acc =>
      match digitVal radix c, acc with
      | some d, some n => parseDigits radix rest (some (n * radix + d))
      | some d, none => parseDigits radix rest (some d)
      | none, _ => none

/-- `i64::from_str_radix` / `str::parse::<i64>`: optional sign, then at
least one digit of the radix.  (Overflow is not modelled; the claims never
exercise 19-digit inputs.) -/
def parseIntRadix (radix : Nat) (s : List Char) : Option Int :=
  match s with
  | [] => none
  | '+' :: rest => (parseDigits radix rest none).map (Int.ofNat ·)
  | '-' :: rest => (parseDigits radix rest none).map (fun n => -(Int.ofNat n))
  | l => (parseDigits radix l none).map (Int.ofNat ·)

/-- `str::trim_start_matches` — repeatedly strip the pattern prefix; the
fuel is the string length, enough for every round to remove at least one
character. -/
def trimStartRep (pat : List Char) : Nat → List Char → List Char
  | 0, l => l
  | fuel + 1, l =>
      if pat ≠ [] ∧ pat.isPrefixOf l then
        trimStartRep pat fuel (l.drop pat.length)
      else l

def trim_start_matches (pat : List Char) (s : List Char) : List Char :=
  trimStartRep pat s.length s

/-- One split step of `str::lines`. -/
def splitOnNl : List Char → List (List Char)
  | [] => [[]]
  | c :: rest =>
      match splitOnNl rest with
      | [] => if c = '\n' then [[], []] else [[c]]
      | hd :: tl => if c = '\n' then [] :: hd :: tl else (c :: hd) :: tl

/-- `str::lines` — split on `'\n'`, no final empty line for a trailing
newline, strip one trailing `'\r'` per line. -/
def linesOf (s : String) : List (List Char) :=
  let parts := splitOnNl s.toList
  let parts := if parts.getLast? = some [] then parts.dropLast else parts
  parts.map (fun l => if l.getLast? = some '\r' then l.dropLast else l)

/-- The per-line body of `fd_flags` (snapshot.rs).  NOTE the translation of
the Rust `?`: the whole `if let … else { continue }` expression has type
`Option<i64>` and `?` is applied to it, so a *failed* parse returns `None`
from the function, while a *successful* parse merely unwraps the value,
discards it, and continues the loop — the in-code comment
`// If parse ok: (we already returned via ?)` describes behaviour the code
does not have. -/
def parseFlagsValue (v : List Char) : Option Int :=
  if v.head? = some '0' then
    parseIntRadix 8 (trim_start_matches ['0'] (trim_start_matches "0o".toList v))
  else parseIntRadix 10 v

def fdFlagsLines : List (List Char) → Option Int
  | [] => none
  | line :: rest =>
      if "flags:".toList.isPrefixOf line then
        match parseFlagsValue (trimL (line.drop "flags:".toList.length)) with
        | none => none
        | some _ => fdFlagsLines rest
      else fdFlagsLines rest

/-- `fd_flags` (snapshot.rs) applied to the contents of
`/proc/{pid}/fdinfo/{fd}`. -/
def fd_flags_content (s : String) : Option Int :=
  fdFlagsLines (linesOf s)

/-- The `mode` computed by `add_fd_edges` (snapshot.rs):
`fd_flags(..).map(fd_mode_from_flags).unwrap_or("?")`. -/
def fd_mode_of_content (s : String) : String :=
  ((fd_flags_content s).map fd_mode_from_flags).getD "?"

end snapshot

/-! ## Agent CLI merging (spacegraph-agent/src/main.rs) -/

namespace agent_main

/-- `parse_args` (main.rs) — the accumulating loop over `std::env::args`. -/
def parseArgsGo : List String → List String → List String →
    Except String (List String × List String)
  | [], inc, exc => .ok (inc, exc)
  | "--include" :: rest, inc, exc =>
      match rest with
      | [] => .error "--include expects a path"
      | p :: rest => parseArgsGo rest (inc ++ [p]) exc
  | "--exclude" :: rest, inc, exc =>
      match rest with
      | [] => .error "--exclude expects a path"
      | p :: rest => parseArgsGo rest inc (exc ++ [p])
  | arg :: _, _, _ => .error ("unknown argument: " ++ arg)

def parse_args (args : List String) : Except String (List String × List String) :=
  parseArgsGo args [] []

/-- `default_watch_roots` (main.rs). -/
def default_watch_roots : List String := ["/etc"]

/-- `default_excludes` (main.rs). -/
def default_excludes : List String := ["/proc", "/sys", "/dev", "/run"]

/-- The include/exclude merging in `main` (main.rs lines 84–91):
`includes = if cli_includes.is_empty() { default_roots } else { cli_includes }`;
`excludes = default_excludes(); excludes.extend(cli_excludes)`. -/
def effective_lists (cli_includes cli_excludes : List String) :
    List String × List String :=
  (if cli_includes.isEmpty then default_watch_roots else cli_includes,
   default_excludes ++ cli_excludes)

end agent_main

/-! ## ProcWatcher loop (spacegraph-agent/src/watch_proc.rs) -/

namespace watch_proc

/-- The loop state of `spawn` (watch_proc.rs): `prev`, `batch_id`, and the
cached passwd map (abstracted to a version token — its parsing plays no
role in the claim). -/
structure WState where
  prev : List Int
  batch_id : Nat
  passwd : Nat
deriving DecidableEq, Repr

/-- What one 750 ms tick observes: the current pid set and the current
content (version) of `/etc/passwd`. -/
structure TickEnv where
  cur : List Int
  passwd_now : Nat
deriving DecidableEq, Repr

/-- One iteration of the `loop` in `spawn` (watch_proc.rs): the passwd
refresh gate, the pid diff, the quiet-tick skip, and the `batch_id`
advance (`wrapping_add(1)`); the `Bool` reports whether `/etc/passwd` was
re-read on this tick.  (The per-pid delta emission does not act on the
state and is omitted.) -/
def tick (s : WState) (env : TickEnv) : WState × Bool :=
  let (passwd, reread) :=
    if s.batch_id % 80 = 0 then (env.passwd_now, true) else (s.passwd, false)
  let new_pids := env.cur.filter (· ∉ s.prev)
  let gone_pids := s.prev.filter (· ∉ env.cur)
  if new_pids.isEmpty && gone_pids.isEmpty then
    ({ prev := env.cur, batch_id := s.batch_id, passwd := passwd }, reread)
  else
    ({ prev := env.cur, batch_id := (s.batch_id + 1) % 2 ^ 64, passwd := passwd },
     reread)

/-- Run ticks `t, t+1, …` against an environment schedule, counting the
re-reads. -/
def runTicksFrom (env : Nat → TickEnv) : Nat → Nat → WState → WState × Nat
  | _, 0, s => (s, 0)
  | t, n + 1, s =>
      let (s', r) := tick s (env t)
      let (s'', c) := runTicksFrom env (t + 1) n s'
      (s'', (if r then 1 else 0) + c)

/-- Run ticks `1 … n`, counting the re-reads. -/
def runTicks (env : Nat → TickEnv) (n : Nat) (s : WState) : WState × Nat :=
  runTicksFrom env 1 n s

/-- The loop state entering the first tick of `spawn` (watch_proc.rs):
`prev` pre-seeded by `list_pids()`, `batch_id = 1`, passwd parsed once. -/
def initial (pids : List Int) (pw : Nat) : WState :=
  { prev := pids, batch_id := 1, passwd := pw }

/-- An environment with process churn on every tick: tick `t` observes
exactly pid `t`. -/
def churnEnv : Nat → TickEnv := fun t => { cur := [(t : Int)], passwd_now := t }

/-- The loop state after `n` ticks of the churn environment, starting from
`initial [0] 0`. -/
def churnState : Nat → WState
  | 0 => initial [(0 : Int)] 0
  | n + 1 => (tick (churnState n) (churnEnv (n + 1))).1

end watch_proc

/-! ## Model invariants (spec §3 "Invariants", §8; claims C1, C2) -/

namespace GraphModel

/-- Number of raw edges in `edges` whose `(from, to, class)` matches `k`. -/
def countFor (edges : List Edge) (k : AggEdgeKey) : Nat :=
  (edges.filter (fun e => AggEdgeKey.new e = k)).length

/-- `matchCount m k` — multiplicity of `k` among `m`'s raw edges. -/
def matchCount (m : GraphModel) (k : AggEdgeKey) : Nat :=
  countFor m.edges k

/-- Adjacency-index correctness relative to a raw edge set: a node's
adjacency list holds exactly the incident edges. -/
def AdjOkFor (m : GraphModel) (edges : List Edge) : Prop :=
  ∀ (id : NodeId) (x : Edge),
    x ∈ m.adjList id ↔ (x ∈ edges ∧ (x.src = id ∨ x.dst = id))

/-- Aggregation-index correctness relative to a raw edge set: every present
entry has `live_count` equal to the (positive) multiplicity of its key, and
keys with multiplicity zero are absent. -/
def AggOkFor (agg : List (AggEdgeKey × AggEdge)) (edges : List Edge) : Prop :=
  ∀ k : AggEdgeKey,
    match lookupA agg k with
    | some a => a.live_count = countFor edges k ∧ 0 < a.live_count
    | none => countFor edges k = 0

/-- The `GraphModel` representation invariant: the raw edge set is
duplicate-free (it is a `HashSet`), and both derived indices agree with
it. -/
def Inv (m : GraphModel) : Prop :=
  m.edges.Nodup ∧ AdjOkFor m m.edges ∧ AggOkFor m.agg m.edges

/-- Every edge's endpoints exist as node keys (spec §3, first invariant). -/
def EndpointClosed (m : GraphModel) : Prop :=
  ∀ e ∈ m.edges, (lookupA m.nodes e.src).isSome ∧ (lookupA m.nodes e.dst).isSome

end GraphModel

namespace GraphState

/-- The guard under which a step keeps endpoint closure: an `UpsertEdge`
arrives only when both endpoints are present, and a snapshot's edges
reference snapshot nodes.  All other messages are unrestricted. -/
def GuardOk (st : GraphState) : Nat × Inc → Prop
  | (_, .snapshot nodes edges) =>
      ∀ e ∈ edges, (∃ p ∈ nodes, p.1 = e.src) ∧ (∃ p ∈ nodes, p.1 = e.dst)
  | (_, .event (.upsertEdge e)) =>
      (lookupA st.model.nodes e.src).isSome ∧ (lookupA st.model.nodes e.dst).isSome
  | _ => True

/-- A trace every step of which satisfies `GuardOk` at its pre-state. -/
def TraceOk : GraphState → List (Nat × Inc) → Prop
  | _, [] => True
  | st, op :: rest => GuardOk st op ∧ TraceOk (st.applyInc op) rest

/-- `n` batch-begin deltas in a row. -/
def batchBeginN : Nat → GraphState → GraphState
  | 0, st => st
  | n + 1, st => batchBeginN n (st.apply_delta 0 (.batchBegin 1))

end GraphState

/-! ## Concrete scenario states -/

/-- The `Opens{fd=3, mode="r"}` edge from P to F of the C2 scenario. -/
def edgePF : Edge := { src := "P", dst := "F", kind := .opens 3 "r" }

/-- C2 scenario: upserting `edgePF` three times after inserting its two
endpoint nodes. -/
def aggScenario : GraphModel :=
  ((((GraphModel.empty.upsert_node "P" (.process 1 0 "/p" "p" 0) 0).upsert_node
      "F" (.file "/f" 1 .regular) 0).upsert_edge edgePF 1).upsert_edge
      edgePF 2).upsert_edge edgePF 3

/-- An `Execs` edge between two named nodes (C7 scenario path graph). -/
def pathEdge (a b : String) : Edge := { src := a, dst := b, kind := .execs }

/-- C7 scenario: a path graph A–B–C–D with `focus = A`, `focus_hops = 2`,
`max_visible_nodes = 10`, empty filter, built through delta application. -/
def bfsScenario : GraphState :=
  let st := GraphState.default
  let st := st.apply_delta 0 (.upsertNode "A" (.file "/A" 1 .regular))
  let st := st.apply_delta 0 (.upsertNode "B" (.file "/B" 2 .regular))
  let st := st.apply_delta 0 (.upsertNode "C" (.file "/C" 3 .regular))
  let st := st.apply_delta 0 (.upsertNode "D" (.file "/D" 4 .regular))
  let st := st.apply_delta 1 (.upsertEdge (pathEdge "A" "B"))
  let st := st.apply_delta 1 (.upsertEdge (pathEdge "B" "C"))
  let st := st.apply_delta 1 (.upsertEdge (pathEdge "C" "D"))
  { st with
    ui := { st.ui with focus := some "A", focus_hops := 2 }
    cfg := { st.cfg with max_visible_nodes := 10 } }

/-- A viewer state with `max_visible_nodes = 1`: two nodes `a`–`b` with an
edge, focus on `b`.  The BFS inserts the neighbour before checking the cap,
so the visible set reaches size 2 and the final lexicographic truncation
keeps only `a`, dropping the focused node. -/
def c7CapState : GraphState :=
  let st := GraphState.default
  let st := st.apply_delta 0 (.upsertNode "a" (.file "/a" 1 .regular))
  let st := st.apply_delta 0 (.upsertNode "b" (.file "/b" 2 .regular))
  let st := st.apply_delta 1 (.upsertEdge (pathEdge "a" "b"))
  { st with
    ui := { st.ui with focus := some "b" }
    cfg := { st.cfg with max_visible_nodes := 1 } }

instance {ε α : Type} [DecidableEq ε] [DecidableEq α] : DecidableEq (Except ε α) := by
  intro a b
  cases a with
  | error e =>
      cases b with
      | error e' =>
          exact if h : e = e' then isTrue (by rw [h]) else
            isFalse (fun hc => h (by cases hc; rfl))
      | ok _ => exact isFalse (fun hc => by cases hc)
  | ok v =>
      cases b with
      | error _ => exact isFalse (fun hc => by cases hc)
      | ok v' =>
          exact if h : v = v' then isTrue (by rw [h]) else
            isFalse (fun hc => h (by cases hc; rfl))

/-! ## Supporting lemmas -/

theorem lookupA_append_right {κ ν : Type} [DecidableEq κ]
    (l : List (κ × ν)) (k : κ) (v : ν) (h : lookupA l k = none) :
    lookupA (l ++ [(k, v)]) k = some v := by
  induction l with
  | nil => simp [lookupA]
  | cons hd tl ih =>
      obtain ⟨k', v'⟩ := hd
      by_cases hk : k' = k
      · simp [lookupA, hk] at h
      · rw [lookupA_cons, if_neg hk] at h
        rw [List.cons_append, lookupA_cons, if_neg hk]
        exact ih h

theorem lookupA_append_single_ne {κ ν : Type} [DecidableEq κ]
    (l : List (κ × ν)) (k k₂ : κ) (v : ν) (h : k ≠ k₂) :
    lookupA (l ++ [(k, v)]) k₂ = lookupA l k₂ := by
  induction l with
  | nil => simp [lookupA, h]
  | cons hd tl ih =>
      obtain ⟨k', v'⟩ := hd
      by_cases hk : k' = k₂ <;>
        simp only [List.cons_append, lookupA_cons, hk, if_true, if_false, ih]

theorem isSome_lookupA_setA {κ ν : Type} [DecidableEq κ]
    (l : List (κ × ν)) (k k₂ : κ) (v : ν) (h : (lookupA l k₂).isSome) :
    (lookupA (setA l k v) k₂).isSome := by
  by_cases hk : k = k₂
  · subst hk
    rw [lookupA_setA_self]
    rfl
  · rw [lookupA_setA_ne _ _ _ _ hk]
    exact h

theorem isSome_lookupA_eraseA_ne {κ ν : Type} [DecidableEq κ]
    (l : List (κ × ν)) (k k₂ : κ) (hne : k ≠ k₂)
    (h : (lookupA l k₂).isSome) : (lookupA (eraseA l k) k₂).isSome := by
  rw [lookupA_eraseA_ne _ _ _ hne]
  exact h

namespace GraphModel

theorem countFor_append (edges : List Edge) (e : Edge) (k : AggEdgeKey) :
    countFor (edges ++ [e]) k =
      countFor edges k + (if AggEdgeKey.new e = k then 1 else 0) := by
  unfold countFor
  rw [List.filter_append, List.length_append]
  by_cases h : AggEdgeKey.new e = k <;> simp [h]

theorem countFor_pos (edges : List Edge) (e : Edge) (he : e ∈ edges) :
    0 < countFor edges (AggEdgeKey.new e) := by
  unfold countFor
  have : e ∈ edges.filter (fun x => AggEdgeKey.new x = AggEdgeKey.new e) :=
    List.mem_filter.mpr ⟨he, by simp⟩
  exact List.length_pos.mpr (List.ne_nil_of_mem this)

theorem countFor_filter_ne (edges : List Edge) (e : Edge) (hnd : edges.Nodup)
    (he : e ∈ edges) (k : AggEdgeKey) :
    countFor (edges.filter (fun x => x ≠ e)) k =
      countFor edges k - (if AggEdgeKey.new e = k then 1 else 0) := by
  have hfe : edges.filter (fun x => x ≠ e) = edges.erase e := by
    rw [hnd.erase_eq_filter e]
    congr 1
    funext x
    by_cases hx : x = e <;> simp [hx]
  rw [hfe]
  have hperm : List.Perm edges (e :: edges.erase e) := List.perm_cons_erase he
  have hc := hperm.countP_eq (fun x => decide (AggEdgeKey.new x = k))
  rw [List.countP_cons] at hc
  unfold countFor
  rw [← List.countP_eq_length_filter, ← List.countP_eq_length_filter]
  by_cases hk : AggEdgeKey.new e = k <;> simp [hk] at hc ⊢ <;> omega

/-- `pushAdj` observed through `adjList`-style lookup. -/
theorem getD_pushAdj (adj : List (NodeId × List Edge)) (k id : NodeId) (e : Edge) :
    (lookupA (pushAdj adj k e) id).getD [] =
      if k = id then (lookupA adj id).getD [] ++ [e] else (lookupA adj id).getD [] := by
  unfold pushAdj
  cases h : lookupA adj k with
  | some lst =>
      by_cases hk : k = id
      · subst hk
        rw [lookupA_setA_self, h]
        simp
      · rw [lookupA_setA_ne _ _ _ _ hk, if_neg hk]
  | none =>
      by_cases hk : k = id
      · subst hk
        rw [lookupA_append_right _ _ _ h, h]
        simp
      · rw [lookupA_append_single_ne _ _ _ _ hk, if_neg hk]

/-- `removeAdjEntry` observed through `adjList`-style lookup. -/
theorem getD_removeAdjEntry (adj : List (NodeId × List Edge)) (k id : NodeId)
    (e : Edge) :
    (lookupA (removeAdjEntry adj k e) id).getD [] =
      if k = id then ((lookupA adj id).getD []).filter (fun x => x ≠ e)
      else (lookupA adj id).getD [] := by
  unfold removeAdjEntry
  cases h : lookupA adj k with
  | none =>
      by_cases hk : k = id
      · subst hk
        rw [h, if_pos rfl]
        simp
      · rw [if_neg hk]
  | some lst =>
      simp only []
      by_cases hemp : lst.filter (fun x => x ≠ e) = []
      · rw [if_pos hemp]
        by_cases hk : k = id
        · subst hk
          rw [lookupA_eraseA_self, h]
          simp only [Option.getD_none, Option.getD_some, if_pos rfl]
          exact hemp.symm
        · rw [lookupA_eraseA_ne _ _ _ hk, if_neg hk]
      · rw [if_neg hemp]
        by_cases hk : k = id
        · subst hk
          rw [lookupA_setA_self, h]
          simp
        · rw [lookupA_setA_ne _ _ _ _ hk, if_neg hk]

theorem mem_adjList_insert_adj (m : GraphModel) (e : Edge) (id : NodeId)
    (x : Edge) :
    x ∈ (insert_adj m e).adjList id ↔
      x ∈ m.adjList id ∨ (x = e ∧ (e.src = id ∨ e.dst = id)) := by
  unfold insert_adj adjList
  simp only []
  rw [getD_pushAdj, getD_pushAdj]
  by_cases hd : e.dst = id <;> by_cases hs : e.src = id <;>
    simp [hd, hs, List.mem_append, or_comm, or_assoc, and_or_left]

theorem mem_adjList_remove_adj (m : GraphModel) (e : Edge) (id : NodeId)
    (x : Edge) :
    x ∈ (remove_adj m e).adjList id ↔
      x ∈ m.adjList id ∧ ¬(x = e ∧ (e.src = id ∨ e.dst = id)) := by
  unfold remove_adj adjList
  simp only []
  rw [getD_removeAdjEntry, getD_removeAdjEntry]
  by_cases hd : e.dst = id <;> by_cases hs : e.src = id <;>
    simp [hd, hs, List.mem_filter]

theorem AdjOkFor_insert_adj (m : GraphModel) (edges : List Edge) (e : Edge)
    (h : AdjOkFor m edges) :
    AdjOkFor (insert_adj m e) (edges ++ [e]) := by
  intro id x
  rw [mem_adjList_insert_adj, h id x, List.mem_append, List.mem_singleton]
  constructor
  · rintro (⟨hx, hi⟩ | ⟨rfl, hi⟩)
    · exact ⟨Or.inl hx, hi⟩
    · exact ⟨Or.inr rfl, hi⟩
  · rintro ⟨hx | rfl, hi⟩
    · exact Or.inl ⟨hx, hi⟩
    · exact Or.inr ⟨rfl, hi⟩

theorem AdjOkFor_remove_adj (m : GraphModel) (edges : List Edge) (e : Edge)
    (h : AdjOkFor m edges) :
    AdjOkFor (remove_adj m e) (edges.filter (fun x => x ≠ e)) := by
  intro id x
  rw [mem_adjList_remove_adj, h id x, List.mem_filter]
  constructor
  · rintro ⟨⟨hx, hi⟩, hguard⟩
    refine ⟨⟨hx, ?_⟩, hi⟩
    simp only [ne_eq, decide_eq_true_eq, decide_not, Bool.not_eq_true',
      decide_eq_false_iff_not]
    intro hxe
    exact hguard ⟨hxe, hxe ▸ hi⟩
  · rintro ⟨⟨hx, hne⟩, hi⟩
    simp only [ne_eq, decide_not, Bool.not_eq_true', decide_eq_false_iff_not] at hne
    exact ⟨⟨hx, hi⟩, fun hc => hne hc.1⟩

theorem AggOkFor_aggUpsert_inserted (agg : List (AggEdgeKey × AggEdge))
    (edges : List Edge) (e : Edge) (now : Nat) (h : AggOkFor agg edges) :
    AggOkFor (aggUpsert agg e now true) (edges ++ [e]) := by
  intro k
  by_cases hk : AggEdgeKey.new e = k
  · subst hk
    unfold aggUpsert
    rw [lookupA_setA_self]
    have hh := h (AggEdgeKey.new e)
    cases hl : lookupA agg (AggEdgeKey.new e) with
    | some a =>
        rw [hl] at hh
        simp only [hl, countFor_append, if_pos rfl]
        simp only [if_true]
        omega
    | none =>
        rw [hl] at hh
        simp only [hl, countFor_append, if_pos rfl]
        simp only [if_true]
        omega
  · unfold aggUpsert
    rw [lookupA_setA_ne _ _ _ _ hk]
    have hh := h k
    cases hl : lookupA agg k with
    | some a =>
        rw [hl] at hh
        simp only [countFor_append, if_neg hk]
        simpa using hh
    | none =>
        rw [hl] at hh
        simp only [countFor_append, if_neg hk]
        simpa using hh

theorem AggOkFor_aggUpsert_present (agg : List (AggEdgeKey × AggEdge))
    (edges : List Edge) (e : Edge) (now : Nat) (h : AggOkFor agg edges)
    (he : e ∈ edges) :
    AggOkFor (aggUpsert agg e now false) edges := by
  intro k
  by_cases hk : AggEdgeKey.new e = k
  · subst hk
    unfold aggUpsert
    rw [lookupA_setA_self]
    have hh := h (AggEdgeKey.new e)
    have hpos := countFor_pos edges e he
    cases hl : lookupA agg (AggEdgeKey.new e) with
    | some a =>
        rw [hl] at hh
        simp only [hl]
        simp only [if_false, Bool.false_eq_true]
        omega
    | none =>
        rw [hl] at hh
        simp only [hl]
        simp only [if_false, Bool.false_eq_true]
        omega
  · unfold aggUpsert
    rw [lookupA_setA_ne _ _ _ _ hk]
    exact h k

theorem AggOkFor_aggRemove (agg : List (AggEdgeKey × AggEdge))
    (edges : List Edge) (e : Edge) (h : AggOkFor agg edges)
    (hnd : edges.Nodup) (he : e ∈ edges) :
    AggOkFor (aggRemove agg e) (edges.filter (fun x => x ≠ e)) := by
  intro k
  have hcnt := countFor_filter_ne edges e hnd he k
  unfold aggRemove
  by_cases hk : AggEdgeKey.new e = k
  · subst hk
    have hh := h (AggEdgeKey.new e)
    have hpos := countFor_pos edges e he
    rw [if_pos rfl] at hcnt
    cases hl : lookupA agg (AggEdgeKey.new e) with
    | none =>
        rw [hl] at hh
        omega
    | some a =>
        rw [hl] at hh
        simp only [hl]
        by_cases hz : a.live_count - 1 = 0
        · rw [if_pos (by simpa using hz), lookupA_eraseA_self]
          show countFor (edges.filter (fun x => x ≠ e)) (AggEdgeKey.new e) = 0
          omega
        · rw [if_neg (by simpa using hz), lookupA_setA_self]
          show (a.live_count - 1 = countFor (edges.filter (fun x => x ≠ e))
              (AggEdgeKey.new e)) ∧ 0 < a.live_count - 1
          omega
  · have hh := h k
    simp only [if_neg hk] at hcnt
    cases hl : lookupA agg (AggEdgeKey.new e) with
    | none =>
        simp only [hl]
        rw [hcnt]
        exact hh
    | some a =>
        simp only [hl]
        by_cases hz : a.live_count - 1 = 0
        · rw [if_pos (by simpa using hz), lookupA_eraseA_ne _ _ _ hk, hcnt]
          exact hh
        · rw [if_neg (by simpa using hz), lookupA_setA_ne _ _ _ _ hk, hcnt]
          exact hh

theorem Inv_empty : Inv GraphModel.empty := by
  refine ⟨List.nodup_nil, fun id x => ?_, fun k => ?_⟩
  · simp [adjList, empty, lookupA]
  · simp [empty, lookupA, countFor]

theorem Inv_upsert_node (m : GraphModel) (id : NodeId) (n : Node) (now : Nat)
    (h : Inv m) : Inv (m.upsert_node id n now) :=
  h

theorem Inv_upsert_edge (m : GraphModel) (e : Edge) (now : Nat) (h : Inv m) :
    Inv (m.upsert_edge e now) := by
  obtain ⟨hnd, hadj, hagg⟩ := h
  by_cases he : e ∈ m.edges
  · have h1 : m.upsert_edge e now = update_agg_on_upsert m e now false := by
      show (if e ∉ m.edges then insert_adj { m with edges := m.edges ++ [e] } e
          else m).update_agg_on_upsert e now (decide (e ∉ m.edges)) =
        m.update_agg_on_upsert e now false
      rw [if_neg (by simpa using he)]
      congr 1
      simp [he]
    rw [h1]
    exact ⟨hnd, hadj, AggOkFor_aggUpsert_present m.agg m.edges e now hagg he⟩
  · have h1 : m.upsert_edge e now =
        update_agg_on_upsert (insert_adj { m with edges := m.edges ++ [e] } e)
          e now true := by
      show (if e ∉ m.edges then insert_adj { m with edges := m.edges ++ [e] } e
          else m).update_agg_on_upsert e now (decide (e ∉ m.edges)) =
        (insert_adj { m with edges := m.edges ++ [e] } e).update_agg_on_upsert
          e now true
      rw [if_pos he]
      congr 1
      simp [he]
    rw [h1]
    refine ⟨?_, ?_, ?_⟩
    · show (m.edges ++ [e]).Nodup
      simp [List.nodup_append, hnd, he]
    · exact AdjOkFor_insert_adj { m with edges := m.edges ++ [e] } m.edges e hadj
    · exact AggOkFor_aggUpsert_inserted m.agg m.edges e now hagg

theorem remove_edge_edges_subset (m : GraphModel) (e : Edge) :
    ∀ x ∈ (m.remove_edge e).1.edges, x ∈ m.edges := by
  intro x hx
  unfold remove_edge at hx
  by_cases he : e ∈ m.edges
  · rw [if_pos he] at hx
    exact (List.mem_filter.mp hx).1
  · rw [if_neg he] at hx
    exact hx

theorem remove_edge_not_mem (m : GraphModel) (e : Edge) :
    e ∉ (m.remove_edge e).1.edges := by
  unfold remove_edge
  by_cases he : e ∈ m.edges
  · rw [if_pos he]
    intro hc
    have := (List.mem_filter.mp hc).2
    simp at this
  · rw [if_neg he]
    exact he

theorem remove_edge_nodes (m : GraphModel) (e : Edge) :
    (m.remove_edge e).1.nodes = m.nodes := by
  unfold remove_edge
  by_cases he : e ∈ m.edges
  · rw [if_pos he]
    rfl
  · rw [if_neg he]

theorem Inv_remove_edge (m : GraphModel) (e : Edge) (h : Inv m) :
    Inv (m.remove_edge e).1 := by
  obtain ⟨hnd, hadj, hagg⟩ := h
  unfold remove_edge
  by_cases he : e ∈ m.edges
  · rw [if_pos he]
    refine ⟨hnd.filter _, ?_, ?_⟩
    · exact AdjOkFor_remove_adj { m with edges := m.edges.filter (· ≠ e) }
        m.edges e hadj
    · exact AggOkFor_aggRemove m.agg m.edges e hagg hnd he
  · rw [if_neg he]
    exact ⟨hnd, hadj, hagg⟩

theorem removeEdgesLoop_spec (l : List Edge) (m : GraphModel) (h : Inv m) :
    Inv (removeEdgesLoop m l).1 ∧
    (∀ x ∈ (removeEdgesLoop m l).1.edges, x ∈ m.edges) ∧
    (∀ x ∈ l, x ∉ (removeEdgesLoop m l).1.edges) ∧
    (removeEdgesLoop m l).1.nodes = m.nodes := by
  induction l generalizing m with
  | nil => exact ⟨h, fun x hx => hx, by simp, rfl⟩
  | cons e rest ih =>
      obtain ⟨ih1, ih2, ih3, ih4⟩ := ih (m.remove_edge e).1 (Inv_remove_edge m e h)
      have hfst : (removeEdgesLoop m (e :: rest)).1 =
          (removeEdgesLoop (m.remove_edge e).1 rest).1 := rfl
      rw [hfst]
      refine ⟨ih1, ?_, ?_, ?_⟩
      · intro x hx
        exact remove_edge_edges_subset m e x (ih2 x hx)
      · intro x hx
        rcases List.mem_cons.mp hx with rfl | hx'
        · intro hc
          exact remove_edge_not_mem m x (ih2 x hc)
        · exact ih3 x hx'
      · rw [ih4, remove_edge_nodes]

theorem countFor_pos_exists (edges : List Edge) (k : AggEdgeKey)
    (h : 0 < countFor edges k) : ∃ x ∈ edges, AggEdgeKey.new x = k := by
  unfold countFor at h
  rcases List.exists_mem_of_length_pos h with ⟨x, hx⟩
  have := List.mem_filter.mp hx
  exact ⟨x, this.1, by simpa using this.2⟩

theorem remove_node_spec (m : GraphModel) (id : NodeId) (h : Inv m) :
    Inv (m.remove_node id).1 ∧
    (∀ x ∈ (m.remove_node id).1.edges, x.src ≠ id ∧ x.dst ≠ id) ∧
    (m.remove_node id).1.adjList id = [] ∧
    (∀ k : AggEdgeKey, k.src = id ∨ k.dst = id →
      lookupA (m.remove_node id).1.agg k = none) ∧
    (∀ x ∈ (m.remove_node id).1.edges, x ∈ m.edges) ∧
    (m.remove_node id).1.nodes = eraseA m.nodes id := by
  obtain ⟨hnd, hadj, hagg⟩ := h
  set m1 : GraphModel :=
    { m with nodes := eraseA m.nodes id, last_seen := eraseA m.last_seen id } with hm1
  have hInv1 : Inv m1 := ⟨hnd, hadj, hagg⟩
  obtain ⟨hl1, hl2, hl3, hl4⟩ := removeEdgesLoop_spec (m1.adjList id) m1 hInv1
  set r1 : GraphModel := (removeEdgesLoop m1 (m1.adjList id)).1 with hr1
  have hres : (m.remove_node id).1 = { r1 with adj := eraseA r1.adj id } := rfl
  have hnoinc : ∀ x ∈ r1.edges, x.src ≠ id ∧ x.dst ≠ id := by
    intro x hx
    constructor <;> intro hxe <;>
      exact hl3 x ((hadj id x).mpr ⟨hl2 x hx, by simp [hxe]⟩) hx
  have hInvRes : Inv { r1 with adj := eraseA r1.adj id } := by
    obtain ⟨hrnd, hradj, hragg⟩ := hl1
    refine ⟨hrnd, ?_, hragg⟩
    intro id2 x
    by_cases hid : id2 = id
    · subst hid
      unfold adjList
      simp only []
      rw [lookupA_eraseA_self]
      simp only [Option.getD_none, List.not_mem_nil, false_iff]
      rintro ⟨hx, hinc⟩
      rcases hinc with hs | hs
      · exact (hnoinc x hx).1 hs
      · exact (hnoinc x hx).2 hs
    · unfold adjList
      simp only []
      rw [lookupA_eraseA_ne _ _ _ (fun hc => hid hc.symm)]
      exact hradj id2 x
  rw [hres]
  refine ⟨hInvRes, hnoinc, ?_, ?_, fun x hx => hl2 x hx, hl4⟩
  · unfold adjList
    simp only []
    rw [lookupA_eraseA_self]
    rfl
  · intro k hk
    have hA := hInvRes.2.2 k
    cases hl : lookupA r1.agg k with
    | none => rfl
    | some a =>
        rw [hl] at hA
        have hA' : a.live_count = countFor r1.edges k ∧ 0 < a.live_count := hA
        exfalso
        obtain ⟨x, hx, hkey⟩ := countFor_pos_exists r1.edges k (by omega)
        have hkeyx : x.src = k.src ∧ x.dst = k.dst := by
          rw [← hkey]
          exact ⟨rfl, rfl⟩
        rcases hk with hs | hs
        · exact (hnoinc x hx).1 (hkeyx.1.trans hs)
        · exact (hnoinc x hx).2 (hkeyx.2.trans hs)

theorem Inv_remove_node (m : GraphModel) (id : NodeId) (h : Inv m) :
    Inv (m.remove_node id).1 :=
  (remove_node_spec m id h).1

theorem foldl_collect_nodup (l acc : List Edge) (h : acc.Nodup) :
    (l.foldl (fun acc e => if e ∈ acc then acc else acc ++ [e]) acc).Nodup := by
  induction l generalizing acc with
  | nil => exact h
  | cons e rest ih =>
      rw [List.foldl_cons]
      by_cases he : e ∈ acc
      · rw [if_pos he]
        exact ih acc h
      · rw [if_neg he]
        exact ih _ (by simp [List.nodup_append, h, he])

theorem collectEdges_nodup (l : List Edge) : (collectEdges l).Nodup :=
  foldl_collect_nodup l [] List.nodup_nil

theorem foldl_collect_subset (l acc : List Edge) (x : Edge)
    (h : x ∈ l.foldl (fun acc e => if e ∈ acc then acc else acc ++ [e]) acc) :
    x ∈ acc ∨ x ∈ l := by
  induction l generalizing acc with
  | nil => exact Or.inl h
  | cons e rest ih =>
      rw [List.foldl_cons] at h
      by_cases he : e ∈ acc
      · rw [if_pos he] at h
        rcases ih acc h with h' | h'
        · exact Or.inl h'
        · exact Or.inr (List.mem_cons_of_mem _ h')
      · rw [if_neg he] at h
        rcases ih _ h with h' | h'
        · rcases List.mem_append.mp h' with h'' | h''
          · exact Or.inl h''
          · exact Or.inr (List.mem_cons.mpr (Or.inl (List.mem_singleton.mp h'')))
        · exact Or.inr (List.mem_cons_of_mem _ h')

theorem mem_collectEdges (l : List Edge) (x : Edge) (h : x ∈ collectEdges l) :
    x ∈ l := by
  rcases foldl_collect_subset l [] x h with h' | h'
  · cases h'
  · exact h'

theorem rebuild_fold_spec (now : Nat) (todo : List Edge) :
    ∀ (p : List Edge) (acc : GraphModel), AdjOkFor acc p → AggOkFor acc.agg p →
    (AdjOkFor
      (todo.foldl (fun a e => update_agg_on_upsert (insert_adj a e) e now true) acc)
      (p ++ todo) ∧
     AggOkFor
      (todo.foldl (fun a e => update_agg_on_upsert (insert_adj a e) e now true) acc).agg
      (p ++ todo) ∧
     (todo.foldl (fun a e => update_agg_on_upsert (insert_adj a e) e now true) acc).edges
      = acc.edges ∧
     (todo.foldl (fun a e => update_agg_on_upsert (insert_adj a e) e now true) acc).nodes
      = acc.nodes ∧
     (todo.foldl (fun a e => update_agg_on_upsert (insert_adj a e) e now true) acc).last_seen
      = acc.last_seen) := by
  induction todo with
  | nil =>
      intro p acc hadj hagg
      simpa using ⟨hadj, hagg⟩
  | cons e rest ih =>
      intro p acc hadj hagg
      rw [List.foldl_cons]
      have hadj' : AdjOkFor (update_agg_on_upsert (insert_adj acc e) e now true)
          (p ++ [e]) := AdjOkFor_insert_adj acc p e hadj
      have hagg' : AggOkFor (update_agg_on_upsert (insert_adj acc e) e now true).agg
          (p ++ [e]) := AggOkFor_aggUpsert_inserted acc.agg p e now hagg
      obtain ⟨h1, h2, h3, h4, h5⟩ := ih (p ++ [e]) _ hadj' hagg'
      rw [List.append_assoc] at h1 h2
      simp only [List.singleton_append] at h1 h2
      exact ⟨h1, h2, h3, h4, h5⟩

theorem Inv_load_snapshot (m : GraphModel) (nodes : List (NodeId × Node))
    (edges : List Edge) (now : Nat) : Inv (m.load_snapshot nodes edges now) := by
  unfold load_snapshot rebuild_indices
  set m3 : GraphModel :=
    { m with
      nodes := collectNodes nodes
      edges := collectEdges edges
      last_seen := (collectNodes nodes).map (fun p => (p.1, now))
      adj := []
      agg := [] } with hm3
  have hadj0 : AdjOkFor m3 [] := by
    intro id x
    simp [adjList, hm3, lookupA]
  have hagg0 : AggOkFor m3.agg [] := by
    intro k
    simp [hm3, lookupA, countFor]
  obtain ⟨h1, h2, h3, _, _⟩ := rebuild_fold_spec now m3.edges [] m3 hadj0 hagg0
  simp only [List.nil_append] at h1 h2
  have hedges : m3.edges = collectEdges edges := rfl
  refine ⟨?_, ?_, ?_⟩
  · show (m3.edges.foldl _ m3).edges.Nodup
    rw [h3, hedges]
    exact collectEdges_nodup edges
  · show AdjOkFor _ (m3.edges.foldl _ m3).edges
    rw [h3]
    exact h1
  · show AggOkFor _ (m3.edges.foldl _ m3).edges
    rw [h3]
    exact h2

end GraphModel

namespace GraphState

theorem model_apply_batchBegin (st : GraphState) (ts b : Nat) :
    (st.apply_delta ts (.batchBegin b)).model = st.model := rfl

theorem model_apply_batchEnd (st : GraphState) (ts b : Nat) :
    (st.apply_delta ts (.batchEnd b)).model = st.model := rfl

theorem model_apply_removeEdge (st : GraphState) (ts : Nat) (e : Edge) :
    (st.apply_delta ts (.removeEdge e)).model = (st.model.remove_edge e).1 := rfl

theorem model_apply_upsertNode (st : GraphState) (ts : Nat) (id : NodeId)
    (n : Node) :
    (st.apply_delta ts (.upsertNode id n)).model = st.model.upsert_node id n ts := by
  simp only [apply_delta, push_timeline_at]
  split <;> rfl

theorem model_apply_removeNode (st : GraphState) (ts : Nat) (id : NodeId) :
    (st.apply_delta ts (.removeNode id)).model = (st.model.remove_node id).1 := by
  simp only [apply_delta, push_timeline_at]
  split <;> rfl

theorem model_apply_upsertEdge (st : GraphState) (ts : Nat) (e : Edge) :
    (st.apply_delta ts (.upsertEdge e)).model =
      { st.model.upsert_edge e ts with
        last_seen :=
          setA (setA (st.model.upsert_edge e ts).last_seen e.src ts) e.dst ts } := by
  simp only [apply_delta, push_timeline_at, touch_node_at]
  split <;> rfl

theorem model_apply_snapshot (st : GraphState) (ts : Nat)
    (nodes : List (NodeId × Node)) (edges : List Edge) :
    (st.apply_snapshot ts nodes edges).model =
      st.model.load_snapshot nodes edges ts := rfl

theorem Inv_applyInc (st : GraphState) (op : Nat × Inc)
    (h : GraphModel.Inv st.model) : GraphModel.Inv (st.applyInc op).model := by
  obtain ⟨ts, inc⟩ := op
  cases inc with
  | snapshot nodes edges =>
      rw [show st.applyInc (ts, .snapshot nodes edges) = st.apply_snapshot ts nodes edges
        from rfl, model_apply_snapshot]
      exact GraphModel.Inv_load_snapshot _ _ _ _
  | event d =>
      rw [show st.applyInc (ts, .event d) = st.apply_delta ts d from rfl]
      cases d with
      | batchBegin b =>
          rw [model_apply_batchBegin]
          exact h
      | batchEnd b =>
          rw [model_apply_batchEnd]
          exact h
      | upsertNode id n =>
          rw [model_apply_upsertNode]
          exact GraphModel.Inv_upsert_node _ _ _ _ h
      | removeNode id =>
          rw [model_apply_removeNode]
          exact GraphModel.Inv_remove_node _ _ h
      | upsertEdge e =>
          rw [model_apply_upsertEdge]
          exact GraphModel.Inv_upsert_edge _ _ _ h
      | removeEdge e =>
          rw [model_apply_removeEdge]
          exact GraphModel.Inv_remove_edge _ _ h

theorem Inv_applyTrace (ops : List (Nat × Inc)) :
    ∀ st : GraphState, GraphModel.Inv st.model →
      GraphModel.Inv (st.applyTrace ops).model := by
  induction ops with
  | nil => exact fun st h => h
  | cons op rest ih =>
      intro st h
      exact ih _ (Inv_applyInc st op h)

theorem Inv_reachable (ops : List (Nat × Inc)) :
    GraphModel.Inv (GraphState.default.applyTrace ops).model :=
  Inv_applyTrace ops GraphState.default GraphModel.Inv_empty

end GraphState

namespace GraphModel

theorem upsert_edge_nodes (m : GraphModel) (e : Edge) (now : Nat) :
    (m.upsert_edge e now).nodes = m.nodes := by
  show ((if e ∉ m.edges then insert_adj { m with edges := m.edges ++ [e] } e
      else m).update_agg_on_upsert e now (decide (e ∉ m.edges))).nodes = m.nodes
  split <;> rfl

theorem upsert_edge_edges_cases (m : GraphModel) (e : Edge) (now : Nat) :
    (m.upsert_edge e now).edges = m.edges ∨
    (m.upsert_edge e now).edges = m.edges ++ [e] := by
  show ((if e ∉ m.edges then insert_adj { m with edges := m.edges ++ [e] } e
      else m).update_agg_on_upsert e now (decide (e ∉ m.edges))).edges = m.edges ∨
    ((if e ∉ m.edges then insert_adj { m with edges := m.edges ++ [e] } e
      else m).update_agg_on_upsert e now (decide (e ∉ m.edges))).edges = m.edges ++ [e]
  split
  · exact Or.inr rfl
  · exact Or.inl rfl

theorem foldl_setA_keys (k : NodeId) (l : List (NodeId × Node))
    (acc : List (NodeId × Node))
    (h : (lookupA acc k).isSome ∨ ∃ p ∈ l, p.1 = k) :
    (lookupA (l.foldl (fun a p => setA a p.1 p.2) acc) k).isSome := by
  induction l generalizing acc with
  | nil =>
      rcases h with h | ⟨p, hp, _⟩
      · exact h
      · cases hp
  | cons q rest ih =>
      rw [List.foldl_cons]
      apply ih
      rcases h with h | ⟨p, hp, hpk⟩
      · exact Or.inl (isSome_lookupA_setA _ _ _ _ h)
      · rcases List.mem_cons.mp hp with rfl | hp'
        · left
          rw [hpk, lookupA_setA_self]
          rfl
        · exact Or.inr ⟨p, hp', hpk⟩

theorem mem_keys_collectNodes (l : List (NodeId × Node)) (k : NodeId)
    (h : ∃ p ∈ l, p.1 = k) : (lookupA (collectNodes l) k).isSome :=
  foldl_setA_keys k l [] (Or.inr h)

theorem load_snapshot_fields (m : GraphModel) (nodes : List (NodeId × Node))
    (edges : List Edge) (now : Nat) :
    (m.load_snapshot nodes edges now).nodes = collectNodes nodes ∧
    (m.load_snapshot nodes edges now).edges = collectEdges edges := by
  unfold load_snapshot rebuild_indices
  set m3 : GraphModel :=
    { m with
      nodes := collectNodes nodes
      edges := collectEdges edges
      last_seen := (collectNodes nodes).map (fun p => (p.1, now))
      adj := []
      agg := [] } with hm3
  have hadj0 : AdjOkFor m3 [] := by
    intro id x
    simp [adjList, hm3, lookupA]
  have hagg0 : AggOkFor m3.agg [] := by
    intro k
    simp [hm3, lookupA, countFor]
  obtain ⟨_, _, h3, h4, _⟩ := rebuild_fold_spec now m3.edges [] m3 hadj0 hagg0
  exact ⟨h4, h3⟩

end GraphModel

namespace GraphState

theorem closed_applyInc (st : GraphState) (op : Nat × Inc)
    (hI : GraphModel.Inv st.model) (hC : GraphModel.EndpointClosed st.model)
    (hG : GuardOk st op) : GraphModel.EndpointClosed (st.applyInc op).model := by
  obtain ⟨ts, inc⟩ := op
  cases inc with
  | snapshot nodes edges =>
      rw [show st.applyInc (ts, .snapshot nodes edges) =
        st.apply_snapshot ts nodes edges from rfl, model_apply_snapshot]
      intro e he
      obtain ⟨hn, hed⟩ := GraphModel.load_snapshot_fields st.model nodes edges ts
      rw [hed] at he
      have hmem := GraphModel.mem_collectEdges edges e he
      obtain ⟨h1, h2⟩ := hG e hmem
      rw [hn]
      exact ⟨GraphModel.mem_keys_collectNodes nodes e.src h1,
        GraphModel.mem_keys_collectNodes nodes e.dst h2⟩
  | event d =>
      rw [show st.applyInc (ts, .event d) = st.apply_delta ts d from rfl]
      cases d with
      | batchBegin b =>
          rw [model_apply_batchBegin]
          exact hC
      | batchEnd b =>
          rw [model_apply_batchEnd]
          exact hC
      | upsertNode id n =>
          rw [model_apply_upsertNode]
          intro e he
          obtain ⟨h1, h2⟩ := hC e he
          exact ⟨isSome_lookupA_setA _ _ _ _ h1, isSome_lookupA_setA _ _ _ _ h2⟩
      | removeNode id =>
          rw [model_apply_removeNode]
          obtain ⟨_, hninc, _, _, hsub, hnodes⟩ :=
            GraphModel.remove_node_spec st.model id hI
          intro e he
          obtain ⟨h1, h2⟩ := hC e (hsub e he)
          obtain ⟨hs, hd⟩ := hninc e he
          rw [hnodes]
          constructor
          · rw [lookupA_eraseA_ne _ _ _ (fun hc => hs hc.symm)]
            exact h1
          · rw [lookupA_eraseA_ne _ _ _ (fun hc => hd hc.symm)]
            exact h2
      | upsertEdge e0 =>
          rw [model_apply_upsertEdge]
          intro e he
          have hnodes := GraphModel.upsert_edge_nodes st.model e0 ts
          have hmem : e ∈ st.model.edges ∨ e = e0 := by
            rcases GraphModel.upsert_edge_edges_cases st.model e0 ts with hc | hc
            · rw [show ({ st.model.upsert_edge e0 ts with
                last_seen := setA (setA (st.model.upsert_edge e0 ts).last_seen
                  e0.src ts) e0.dst ts } : GraphModel).edges =
                  (st.model.upsert_edge e0 ts).edges from rfl, hc] at he
              exact Or.inl he
            · rw [show ({ st.model.upsert_edge e0 ts with
                last_seen := setA (setA (st.model.upsert_edge e0 ts).last_seen
                  e0.src ts) e0.dst ts } : GraphModel).edges =
                  (st.model.upsert_edge e0 ts).edges from rfl, hc] at he
              rcases List.mem_append.mp he with h' | h'
              · exact Or.inl h'
              · exact Or.inr (List.mem_singleton.mp h')
          have hn2 : ({ st.model.upsert_edge e0 ts with
              last_seen := setA (setA (st.model.upsert_edge e0 ts).last_seen
                e0.src ts) e0.dst ts } : GraphModel).nodes = st.model.nodes := hnodes
          rw [hn2]
          rcases hmem with h' | rfl
          · exact hC e h'
          · exact hG
      | removeEdge e0 =>
          rw [model_apply_removeEdge]
          intro e he
          have := GraphModel.remove_edge_edges_subset st.model e0 e he
          rw [GraphModel.remove_edge_nodes]
          exact hC e this

theorem closed_applyTrace (ops : List (Nat × Inc)) :
    ∀ st : GraphState, GraphModel.Inv st.model →
      GraphModel.EndpointClosed st.model → TraceOk st ops →
      GraphModel.EndpointClosed (st.applyTrace ops).model := by
  induction ops with
  | nil => exact fun st _ hC _ => hC
  | cons op rest ih =>
      intro st hI hC hT
      exact ih _ (Inv_applyInc st op hI) (closed_applyInc st op hI hC hT.1) hT.2

end GraphState

/-- `fd_flags` (snapshot.rs) returns `None` on every line list: a failed
parse early-returns `None` through `?`, a successful parse is unwrapped by
`?` and discarded, and the loop falls through to the trailing `None`. -/
theorem fdFlagsLines_none (ls : List (List Char)) :
    snapshot.fdFlagsLines ls = none := by
  induction ls with
  | nil => rfl
  | cons line rest ih =>
      unfold snapshot.fdFlagsLines
      split
      · split
        · rfl
        · exact ih
      · exact ih

/-- C5: the snapshot builder's per-fd `mode` is supposed to come from the
`flags` line of `/proc/{pid}/fdinfo/{fd}` via `flags & 3 ↦ r|w|rw|?`, and
`fd_mode_from_flags` indeed implements that mapping — but `fd_flags`
(snapshot.rs) never returns a parsed value: the `?` operator is applied to
the whole `if let`-expression, so a successful parse is unwrapped and
*discarded* while only a failed parse early-returns; every control path
ends in `None` and `add_fd_edges` therefore labels every fd with `"?"`.
Here: a well-formed fdinfo content with `flags: 02` (octal, `flags & 3 = 2`,
so the spec demands `"rw"`) still yields `None` / `"?"`. -/
theorem C5_fd_flags_discards_parse :
    (∀ s : String, snapshot.fd_flags_content s = none) ∧
    (∀ s : String, snapshot.fd_mode_of_content s = "?") ∧
    snapshot.fd_mode_from_flags 2 = "rw" ∧
    snapshot.fd_flags_content "pos:\t0\nflags:\t02\nmnt_id:\t15\n" = none ∧
    snapshot.fd_mode_of_content "pos:\t0\nflags:\t02\nmnt_id:\t15\n" = "?" := by
  refine ⟨fun s => fdFlagsLines_none _, fun s => ?_, by decide, by decide, by decide⟩
  unfold snapshot.fd_mode_of_content
  rw [show snapshot.fd_flags_content s = none from fdFlagsLines_none _]
  rfl

/-- C8 counterexample: invoking the agent with `--exclude /x` (and no
`--include`) parses to `cli_excludes = ["/x"]`, yet the effective exclude
list still contains the default entry `"/proc"` — `main.rs` *extends* the
default excludes with the user's instead of replacing them, contradicting
the claim that the effective policy contains no default entry for a list
the user supplied. -/
theorem C8_counterexample :
    agent_main.parse_args ["--exclude", "/x"] = .ok ([], ["/x"]) ∧
    "/proc" ∈ (agent_main.effective_lists [] ["/x"]).2 ∧
    (agent_main.effective_lists [] ["/x"]).2 ≠ ["/x"] := by decide

/-- C8 (amended): user `--include` flags replace the default include list
(`["/etc"]` is used only when no `--include` is given), while user
`--exclude` flags are appended to the always-retained default exclude list
`["/proc", "/sys", "/dev", "/run"]`. -/
theorem C8_include_replaces_exclude_extends (ci ce : List String) :
    (agent_main.effective_lists ci ce).1 = (if ci = [] then ["/etc"] else ci) ∧
    (agent_main.effective_lists ci ce).2 = ["/proc", "/sys", "/dev", "/run"] ++ ce := by
  constructor
  · simp [agent_main.effective_lists, agent_main.default_watch_roots,
      List.isEmpty_iff]
  · rfl

/-- C9 counterexample: eighty consecutive 750 ms ticks without process
churn, starting from a fresh watcher (`batch_id = 1`), trigger zero
re-reads of `/etc/passwd` (the cached map keeps its stale content), because
the refresh gate tests `batch_id % 80 == 0` and `batch_id` advances only on
ticks that emitted a batch — the claim's "every 80 ticks … regardless of
whether process churn occurred" fails. -/
theorem C9_counterexample :
    (watch_proc.runTicks (fun _ => { cur := [1], passwd_now := 7 }) 80
      (watch_proc.initial [1] 0)).2 = 0 ∧
    (watch_proc.runTicks (fun _ => { cur := [1], passwd_now := 7 }) 80
      (watch_proc.initial [1] 0)).1.passwd = 0 := by decide

theorem churnState_spec (n : Nat) (h : n + 1 < 2 ^ 64) :
    (watch_proc.churnState n).batch_id = n + 1 ∧
    (watch_proc.churnState n).prev = [(n : Int)] := by
  induction n with
  | zero => exact ⟨rfl, rfl⟩
  | succ n ih =>
      have hn : n + 1 < 2 ^ 64 := by omega
      obtain ⟨hb, hp⟩ := ih hn
      unfold watch_proc.churnState watch_proc.tick
      simp only [hb, hp, watch_proc.churnEnv]
      have hne : ((n + 1 : Nat) : Int) ∉ [((n : Nat) : Int)] := by
        simp only [List.mem_singleton, Nat.cast_inj]
        omega
      have hfil : [((n + 1 : Nat) : Int)].filter (fun x => x ∉ [((n : Nat) : Int)]) =
          [((n + 1 : Nat) : Int)] := by
        simp [List.filter, hne]
      simp only [hfil]
      simp only [List.isEmpty_cons, Bool.false_and, Bool.false_eq_true, if_false]
      exact ⟨Nat.mod_eq_of_lt h, by trivial⟩

theorem tick_snd (s : watch_proc.WState) (env : watch_proc.TickEnv) :
    (watch_proc.tick s env).2 = decide (s.batch_id % 80 = 0) := by
  unfold watch_proc.tick
  by_cases h : s.batch_id % 80 = 0 <;> simp only [h, if_true, if_false] <;>
    split <;> simp [h]

/-- C9 (amended): `/etc/passwd` is re-read at the start of a tick exactly
when the current `batch_id` is divisible by 80; `batch_id` starts at 1 and
advances only on ticks with process churn.  Hence under churn on *every*
tick the refresh happens exactly on every 80th tick, while a churn-free
tick leaves `batch_id` (and with it the refresh schedule) unchanged. -/
theorem C9_passwd_refresh_keyed_to_batch_id :
    (∀ t : Nat, 1 ≤ t → t + 1 < 2 ^ 64 →
      ((watch_proc.tick (watch_proc.churnState (t - 1)) (watch_proc.churnEnv t)).2 = true ↔
        t % 80 = 0)) ∧
    (∀ (s : watch_proc.WState) (env : watch_proc.TickEnv),
      env.cur.filter (· ∉ s.prev) = [] → s.prev.filter (· ∉ env.cur) = [] →
      (watch_proc.tick s env).1.batch_id = s.batch_id) := by
  constructor
  · intro t ht hlt
    have hb : (watch_proc.churnState (t - 1)).batch_id = t := by
      have h := (churnState_spec (t - 1) (by omega)).1
      omega
    rw [tick_snd, hb]
    simp
  · intro s env h1 h2
    unfold watch_proc.tick
    rw [h1, h2]
    rfl

/-- C9 witness: under all-tick churn the 80th tick re-reads `/etc/passwd`,
and a concrete quiet tick leaves `batch_id` unchanged. -/
theorem C9_passwd_refresh_keyed_to_batch_id_witness :
    ((watch_proc.tick (watch_proc.churnState 79) (watch_proc.churnEnv 80)).2 = true) ∧
    (watch_proc.tick { prev := [1], batch_id := 5, passwd := 0 }
      { cur := [1], passwd_now := 9 }).1.batch_id = 5 :=
  ⟨(C9_passwd_refresh_keyed_to_batch_id.1 80 (by decide) (by decide)).mpr (by decide),
   C9_passwd_refresh_keyed_to_batch_id.2
     { prev := [1], batch_id := 5, passwd := 0 }
     { cur := [1], passwd_now := 9 } (by decide) (by decide)⟩

/-- C3: the coalescer's update rule — a `Remove` arriving while the pending
action is `Upsert` flips it to `Remove`; an arriving `Upsert` always sets
the pending action to `Upsert`, including promoting a `Remove` back; and the
concrete window `A:Upsert, A:Upsert, A:Remove, B:Upsert` flushes as one
batch `[BatchBegin id, RemoveNode(A), UpsertNode(B), BatchEnd id]` —
`RemoveNode(A)` and `UpsertNode(B)` in map order, bracketed by matching
batch markers (`50_000` is the watcher's initial batch id, the emit-time
`stat` of `B` returning inode 0). -/
theorem C3_coalescer_latest_wins :
    (∀ (pending : List (String × watch_fs.Action)) (path : String),
      lookupA pending path = some watch_fs.Action.upsert →
      lookupA (watch_fs.coalesce pending path watch_fs.Action.remove) path =
        some watch_fs.Action.remove) ∧
    (∀ (pending : List (String × watch_fs.Action)) (path : String),
      lookupA (watch_fs.coalesce pending path watch_fs.Action.upsert) path =
        some watch_fs.Action.upsert) ∧
    watch_fs.emitBatch "n" 50000 (fun _ => 0)
      (watch_fs.absorb [] [("A", .upsert), ("A", .upsert), ("A", .remove), ("B", .upsert)]) =
      [Delta.batchBegin 50000,
       Delta.removeNode (id_file "n" "A"),
       Delta.upsertNode (id_file "n" "B") (Node.file "B" 0 FileKind.unknown),
       Delta.batchEnd 50000] := by
  refine ⟨?_, ?_, by decide⟩
  · intro pending path h
    unfold watch_fs.coalesce
    rw [h]
    simp only [ne_eq]
    rw [if_pos (by simp)]
    exact lookupA_setA_self _ _ _
  · intro pending path
    unfold watch_fs.coalesce
    cases h : lookupA pending path with
    | none => exact lookupA_append_right _ _ _ h
    | some a =>
        cases a <;> simp only [ne_eq, if_true] <;> exact lookupA_setA_self _ _ _

/-- C3 witness: the hypothesised conjunct applied at a concrete pending
map. -/
theorem C3_coalescer_latest_wins_witness :
    lookupA (watch_fs.coalesce [("A", watch_fs.Action.upsert)] "A" watch_fs.Action.remove) "A" =
      some watch_fs.Action.remove :=
  C3_coalescer_latest_wins.1 [("A", watch_fs.Action.upsert)] "A" (by decide)

/-- C4: `should_watch(p)` is true iff no exclude matches `p` and (the
include list is empty or some include is a path prefix of the normalized
`p`); the function is total, and pure relative to the explicit filesystem
environment `env`. -/
theorem C4_should_watch_iff (env : path_policy.FsEnv)
    (pol : path_policy.PathPolicy) (p : path_policy.RPath) :
    pol.should_watch env p = true ↔
      ((¬ ∃ ex ∈ pol.excludes, excludeMatchesSpec env ex p) ∧
       (pol.includes = [] ∨
        ∃ inc ∈ pol.includes,
          path_policy.startsWithP (path_policy.normalize_path env p) inc = true)) := by
  unfold path_policy.PathPolicy.should_watch
  have hexc : pol.is_excluded env p = true ↔
      ∃ ex ∈ pol.excludes, excludeMatchesSpec env ex p := by
    unfold path_policy.PathPolicy.is_excluded excludeMatchesSpec
    simp only [List.any_eq_true]
    constructor
    · rintro ⟨ex, hmem, hex⟩
      refine ⟨ex, hmem, ?_⟩
      by_cases ha : ex.absolute = true
      · rw [if_pos ha] at hex ⊢
        exact hex
      · rw [if_neg ha] at hex ⊢
        simpa using hex
    · rintro ⟨ex, hmem, hex⟩
      refine ⟨ex, hmem, ?_⟩
      by_cases ha : ex.absolute = true
      · rw [if_pos ha] at hex ⊢
        exact hex
      · rw [if_neg ha] at hex ⊢
        simpa using hex
  have hinc : pol.is_included env p = true ↔
      ∃ inc ∈ pol.includes,
        path_policy.startsWithP (path_policy.normalize_path env p) inc = true := by
    unfold path_policy.PathPolicy.is_included
    simp [List.any_eq_true]
  by_cases he : pol.is_excluded env p = true
  · simp only [he, if_true]
    constructor
    · intro h
      cases h
    · rintro ⟨hne, _⟩
      exact absurd (hexc.mp he) hne
  · have he' : pol.is_excluded env p = false := by
      cases hfe : pol.is_excluded env p
      · rfl
      · exact absurd hfe he
    rw [he']
    simp only [Bool.false_eq_true, if_false]
    by_cases hi : pol.includes.isEmpty = true
    · simp only [hi, if_true, true_iff]
      refine ⟨fun hex => he (hexc.mpr hex), Or.inl ?_⟩
      exact List.isEmpty_iff.mp hi
    · have hi' : pol.includes.isEmpty = false := by
        cases hfe : pol.includes.isEmpty
        · rfl
        · exact absurd hfe hi
      rw [hi']
      simp only [Bool.false_eq_true, if_false]
      rw [hinc]
      constructor
      · intro h
        exact ⟨fun hex => he (hexc.mpr hex), Or.inr h⟩
      · rintro ⟨_, h | h⟩
        · exact absurd (List.isEmpty_iff.mpr h) (by simp [hi'])
        · exact h

/-! ### C10: GC eviction vs. RemoveNode — UI reference clearing -/

/-- `RemoveNode` UI clearing (state.rs): the resulting `ui` sub-state in
closed form. -/
theorem apply_removeNode_ui (st : GraphState) (ts : Nat) (id : NodeId) :
    (st.apply_delta ts (.removeNode id)).ui =
      { st.ui with
        focus := if st.ui.focus = some id then none else st.ui.focus
        selected := if st.ui.selected = some id then none else st.ui.selected
        selected_a := if st.ui.selected_a = some id then none else st.ui.selected_a
        selected_b := if st.ui.selected_b = some id then none else st.ui.selected_b
        hovered := if st.ui.hovered = some id then none else st.ui.hovered } := by
  simp only [GraphState.apply_delta, GraphState.push_timeline_at]
  split <;> rfl

theorem gcEvictOne_selected_ab (st : GraphState) (id : NodeId) :
    (st.gcEvictOne id).ui.selected_a = st.ui.selected_a ∧
    (st.gcEvictOne id).ui.selected_b = st.ui.selected_b :=
  ⟨rfl, rfl⟩

theorem foldl_gcEvictOne_selected_ab (ids : List NodeId) (st : GraphState) :
    (ids.foldl GraphState.gcEvictOne st).ui.selected_a = st.ui.selected_a ∧
    (ids.foldl GraphState.gcEvictOne st).ui.selected_b = st.ui.selected_b := by
  induction ids generalizing st with
  | nil => exact ⟨rfl, rfl⟩
  | cons x rest ih =>
      simpa [List.foldl_cons, (gcEvictOne_selected_ab st x).1,
        (gcEvictOne_selected_ab st x).2] using ih (st.gcEvictOne x)

theorem gcEvictOne_clears (st : GraphState) (id : NodeId) :
    (st.gcEvictOne id).ui.focus ≠ some id ∧
    (st.gcEvictOne id).ui.selected ≠ some id ∧
    (st.gcEvictOne id).ui.hovered ≠ some id ∧
    lookupA (st.gcEvictOne id).model.nodes id = none := by
  refine ⟨?_, ?_, ?_, lookupA_eraseA_self _ _⟩ <;>
    · show (if _ = some id then none else _) ≠ some id
      split
      · simp
      · assumption

theorem gcEvictOne_keeps_clear (st : GraphState) (x id : NodeId)
    (hf : st.ui.focus ≠ some id) (hs : st.ui.selected ≠ some id)
    (hh : st.ui.hovered ≠ some id)
    (hn : lookupA st.model.nodes id = none) :
    (st.gcEvictOne x).ui.focus ≠ some id ∧
    (st.gcEvictOne x).ui.selected ≠ some id ∧
    (st.gcEvictOne x).ui.hovered ≠ some id ∧
    lookupA (st.gcEvictOne x).model.nodes id = none := by
  refine ⟨?_, ?_, ?_, ?_⟩
  · show (if _ = some x then none else _) ≠ some id
    split
    · simp
    · exact hf
  · show (if _ = some x then none else _) ≠ some id
    split
    · simp
    · exact hs
  · show (if _ = some x then none else _) ≠ some id
    split
    · simp
    · exact hh
  · show lookupA (eraseA st.model.nodes x) id = none
    by_cases hx : x = id
    · subst hx
      exact lookupA_eraseA_self _ _
    · rw [lookupA_eraseA_ne _ _ _ hx]
      exact hn

theorem foldl_gcEvictOne_clears (ids : List NodeId) (st : GraphState)
    (id : NodeId) (hmem : id ∈ ids) :
    (ids.foldl GraphState.gcEvictOne st).ui.focus ≠ some id ∧
    (ids.foldl GraphState.gcEvictOne st).ui.selected ≠ some id ∧
    (ids.foldl GraphState.gcEvictOne st).ui.hovered ≠ some id ∧
    lookupA (ids.foldl GraphState.gcEvictOne st).model.nodes id = none := by
  induction ids generalizing st with
  | nil => cases hmem
  | cons x rest ih =>
      rw [List.foldl_cons]
      rcases List.mem_cons.mp hmem with rfl | hmem'
      · -- evicted now, and the property survives the remaining evictions
        clear ih hmem
        have h0 := gcEvictOne_clears st id
        generalize st.gcEvictOne id = st1 at h0
        clear st
        induction rest generalizing st1 with
        | nil => exact h0
        | cons y ys ihy =>
            rw [List.foldl_cons]
            exact ihy _ (gcEvictOne_keeps_clear st1 y id h0.1 h0.2.1 h0.2.2.1 h0.2.2.2)
      · exact ih _ hmem'

/-- C10: when `tick_gc` evicts an orphan file node it clears `ui.focus`,
`ui.selected` and `ui.hovered` if they point at the evicted id but leaves
`ui.selected_a` / `ui.selected_b` untouched (so they may dangle on a node
no longer in the model), whereas applying a `RemoveNode` delta for the same
id clears all five UI references. -/
theorem C10_gc_leaves_selected_ab_dangling :
    (∀ (st : GraphState) (now : Nat),
      (st.tick_gc now).ui.selected_a = st.ui.selected_a ∧
      (st.tick_gc now).ui.selected_b = st.ui.selected_b) ∧
    (∀ (st : GraphState) (now : Nat) (id : NodeId),
      st.cfg.gc_enabled = true →
      ¬ (now - st.perf.gc_last_run < st.cfg.gc_interval) →
      id ∈ st.gcToRemove now →
      (st.tick_gc now).ui.focus ≠ some id ∧
      (st.tick_gc now).ui.selected ≠ some id ∧
      (st.tick_gc now).ui.hovered ≠ some id ∧
      lookupA (st.tick_gc now).model.nodes id = none) ∧
    (∀ (st : GraphState) (ts : Nat) (id : NodeId),
      (st.apply_delta ts (.removeNode id)).ui.focus ≠ some id ∧
      (st.apply_delta ts (.removeNode id)).ui.selected ≠ some id ∧
      (st.apply_delta ts (.removeNode id)).ui.selected_a ≠ some id ∧
      (st.apply_delta ts (.removeNode id)).ui.selected_b ≠ some id ∧
      (st.apply_delta ts (.removeNode id)).ui.hovered ≠ some id) := by
  refine ⟨?_, ?_, ?_⟩
  · intro st now
    unfold GraphState.tick_gc GraphState.gcRun
    split
    · exact ⟨rfl, rfl⟩
    · split
      · exact ⟨rfl, rfl⟩
      · split
        · exact ⟨rfl, rfl⟩
        · exact foldl_gcEvictOne_selected_ab _ _
  · intro st now id hen hint hmem
    unfold GraphState.tick_gc GraphState.gcRun
    rw [if_neg (by simp [hen]), if_neg hint]
    have hmem' : id ∈ ({ st with perf := { gc_last_run := now } } : GraphState).gcToRemove now :=
      hmem
    rw [if_neg (List.ne_nil_of_mem hmem')]
    exact foldl_gcEvictOne_clears _ _ _ hmem'
  · intro st ts id
    rw [apply_removeNode_ui]
    refine ⟨?_, ?_, ?_, ?_, ?_⟩ <;>
      · show (if _ = some id then none else _) ≠ some id
        split
        · simp
        · assumption

/-- C10 witness: a concrete state in which GC evicts orphan file `F` while
`selected_a` keeps pointing at it, and in which a `RemoveNode F` delta
clears `selected_a`. -/
theorem C10_gc_leaves_selected_ab_dangling_witness :
    (let st0 : GraphState :=
      { GraphState.default with
        model := { GraphModel.empty with
          nodes := [("F", Node.file "/f" 1 FileKind.regular)]
          last_seen := [("F", 0)] }
        ui := { GraphState.default.ui with
          focus := some "F", selected_a := some "F" } }
     (st0.tick_gc 31000).ui.selected_a = some "F" ∧
     (st0.tick_gc 31000).ui.focus ≠ some "F" ∧
     lookupA (st0.tick_gc 31000).model.nodes "F" = none ∧
     (st0.apply_delta 0 (.removeNode "F")).ui.selected_a ≠ some "F") := by
  refine ⟨?_, ?_, ?_, ?_⟩
  · rw [(C10_gc_leaves_selected_ab_dangling.1 _ 31000).1]
  · exact (C10_gc_leaves_selected_ab_dangling.2.1 _ 31000 "F" (by decide) (by decide)
      (by decide)).1
  · exact (C10_gc_leaves_selected_ab_dangling.2.1 _ 31000 "F" (by decide) (by decide)
      (by decide)).2.2.2
  · exact (C10_gc_leaves_selected_ab_dangling.2.2 _ 0 "F").2.2.1

/-! ### C6: timeline buffer cap and window trimming -/

/-- Applying a delta pushes exactly one timeline event and leaves
`max_events` unchanged. -/
theorem apply_delta_timeline_push (st : GraphState) (ts : Nat) (d : Delta) :
    (st.apply_delta ts d).timeline.events.length = st.timeline.events.length + 1 ∧
    (st.apply_delta ts d).timeline.max_events = st.timeline.max_events := by
  cases d <;>
    simp only [GraphState.apply_delta, GraphState.push_timeline_at,
      GraphState.touch_node_at] <;>
    constructor <;>
    (try split) <;>
    simp [TimelineState.record_batch_begin, TimelineState.record_batch_end,
      TimelineState.record_node_upsert, TimelineState.record_node_remove,
      GraphModel.upsert_node]

theorem batchBeginN_timeline (n : Nat) (st : GraphState) :
    (GraphState.batchBeginN n st).timeline.events.length = st.timeline.events.length + n ∧
    (GraphState.batchBeginN n st).timeline.max_events = st.timeline.max_events := by
  induction n generalizing st with
  | zero => exact ⟨rfl, rfl⟩
  | succ n ih =>
      have h := apply_delta_timeline_push st 0 (.batchBegin 1)
      have h' := ih (st.apply_delta 0 (.batchBegin 1))
      unfold GraphState.batchBeginN
      omega

/-- C6 counterexample: the timeline buffer is *not* capped at the moment a
delta is applied — `push_timeline_at` appends unconditionally and the cap
is enforced only by the separate `trim` tick.  Applying 20 001 deltas to
the default viewer state (cap 20 000) leaves 20 001 buffered events. -/
theorem C6_counterexample :
    (GraphState.batchBeginN 20001 GraphState.default).timeline.events.length >
      (GraphState.batchBeginN 20001 GraphState.default).timeline.max_events := by
  obtain ⟨h1, h2⟩ := batchBeginN_timeline 20001 GraphState.default
  rw [h1, h2]
  decide

theorem dropExcess_length (events : List TimelineEvt) (cap : Nat) :
    (TimelineState.dropExcess events cap).length ≤ cap := by
  unfold TimelineState.dropExcess
  rw [List.length_drop]
  omega

theorem dropWhile_ts_ge (ws : Nat) (l : List TimelineEvt)
    (hs : l.Pairwise (fun a b => a.ts ≤ b.ts)) :
    ∀ e ∈ l.dropWhile (fun e => decide (e.ts < ws)), ws ≤ e.ts := by
  induction l with
  | nil => intro e he; cases he
  | cons x xs ih =>
      rw [List.pairwise_cons] at hs
      rw [List.dropWhile_cons]
      by_cases hx : x.ts < ws
      · rw [if_pos (by simpa using hx)]
        exact ih hs.2
      · rw [if_neg (by simpa using hx)]
        intro e he
        rcases List.mem_cons.mp he with rfl | he'
        · omega
        · have := hs.1 e he'
          omega

/-- C6 (amended): the cap and the window bound hold *after a trim tick*
(not after every delta): for a timestamp-sorted buffer, `trim(now)` leaves
at most `max_events` events, and every retained event satisfies
`now − ts ≤ window`. -/
theorem C6_trim_caps_and_windows (t : TimelineState) (now : Nat)
    (hs : t.events.Pairwise (fun a b => a.ts ≤ b.ts)) :
    (t.trim now).events.length ≤ t.max_events ∧
    ∀ e ∈ (t.trim now).events, now - e.ts ≤ t.window := by
  unfold TimelineState.trim
  constructor
  · calc ((TimelineState.dropExcess t.events t.max_events).dropWhile
          (fun e => decide (e.ts < t.window_start now))).length
        ≤ (TimelineState.dropExcess t.events t.max_events).length :=
          (List.dropWhile_sublist _).length_le
      _ ≤ t.max_events := dropExcess_length _ _
  · intro e he
    have hsub : (TimelineState.dropExcess t.events t.max_events).Sublist t.events := by
      unfold TimelineState.dropExcess
      exact List.drop_sublist _ _
    have hs' : (TimelineState.dropExcess t.events t.max_events).Pairwise
        (fun a b => a.ts ≤ b.ts) := hs.sublist hsub
    have hge := dropWhile_ts_ge (t.window_start now) _ hs' e he
    unfold TimelineState.window_start at hge
    omega

/-! ### C7: focus BFS of visible_set_capped -/

theorem GraphState.processNbrs_mem (maxVis d : Nat) (x : NodeId)
    (nbrs : List NodeId) :
    ∀ (vis : List NodeId) (acc : List (NodeId × Nat)), x ∈ vis →
      x ∈ (GraphState.processNbrs maxVis d nbrs vis acc).1 := by
  induction nbrs with
  | nil => intro vis acc hx; exact hx
  | cons nb rest ih =>
      intro vis acc hx
      by_cases hb : nb ∈ vis
      · simp only [GraphState.processNbrs, if_pos hb]
        split
        · exact hx
        · exact ih _ _ hx
      · simp only [GraphState.processNbrs, if_neg hb]
        have hx' : x ∈ vis ++ [nb] := List.mem_append_left _ hx
        split
        · exact hx'
        · exact ih _ _ hx'

theorem GraphState.processNbrs_cap (maxVis d : Nat) (nbrs : List NodeId) :
    ∀ (vis : List NodeId) (acc : List (NodeId × Nat)), vis.length < maxVis →
      (GraphState.processNbrs maxVis d nbrs vis acc).1.length ≤ maxVis := by
  induction nbrs with
  | nil => intro vis acc h; exact Nat.le_of_lt h
  | cons nb rest ih =>
      intro vis acc h
      by_cases hb : nb ∈ vis
      · simp only [GraphState.processNbrs, if_pos hb]
        split
        · exact Nat.le_of_lt h
        · exact ih _ _ h
      · simp only [GraphState.processNbrs, if_neg hb]
        have hl : (vis ++ [nb]).length = vis.length + 1 := by simp
        split
        · show (vis ++ [nb]).length ≤ maxVis
          rw [hl]
          omega
        · rename_i hc
          exact ih _ _ (Nat.not_le.mp hc)

theorem GraphState.bfsAux_mem_cap (m : GraphModel) (maxVis hops : Nat)
    (x : NodeId) :
    ∀ (fuel : Nat) (vis : List NodeId) (q : List (NodeId × Nat))
      (out : List NodeId), x ∈ vis → vis.length < maxVis →
      GraphState.bfsAux m maxVis hops fuel vis q = some out →
      x ∈ out ∧ out.length ≤ maxVis := by
  intro fuel
  induction fuel with
  | zero =>
      intro vis q out _ _ h
      simp [GraphState.bfsAux] at h
  | succ fuel ih =>
      intro vis q out hx hlen h
      cases q with
      | nil =>
          simp only [GraphState.bfsAux] at h
          injection h with h
          subst h
          exact ⟨hx, Nat.le_of_lt hlen⟩
      | cons p rest =>
          obtain ⟨cur, d⟩ := p
          simp only [GraphState.bfsAux] at h
          split at h
          · exact ih vis rest out hx hlen h
          · split at h
            · injection h with h
              subst h
              exact ⟨GraphState.processNbrs_mem maxVis d x (m.neighbors cur)
                  vis [] hx,
                GraphState.processNbrs_cap maxVis d (m.neighbors cur)
                  vis [] hlen⟩
            · split at h
              · injection h with h
                subst h
                exact ⟨GraphState.processNbrs_mem maxVis d x (m.neighbors cur)
                    vis [] hx,
                  GraphState.processNbrs_cap maxVis d (m.neighbors cur)
                    vis [] hlen⟩
              · rename_i hc
                exact ih _ _ out
                  (GraphState.processNbrs_mem maxVis d x (m.neighbors cur)
                    vis [] hx)
                  (by omega) h

theorem GraphState.bfsFrom_focus_mem_cap (m : GraphModel)
    (maxVis hops : Nat) (focus : NodeId) (hcap : 2 ≤ maxVis) :
    focus ∈ GraphState.bfsFrom m maxVis hops focus ∧
      (GraphState.bfsFrom m maxVis hops focus).length ≤ maxVis := by
  unfold GraphState.bfsFrom
  cases hb : GraphState.bfsAux m maxVis hops
      ((GraphState.edgeEndpoints m).length + 2) [focus] [(focus, 0)] with
  | none =>
      refine ⟨List.mem_singleton_self focus, ?_⟩
      show (1 : Nat) ≤ maxVis
      omega
  | some out =>
      have h := GraphState.bfsAux_mem_cap m maxVis hops focus
        ((GraphState.edgeEndpoints m).length + 2) [focus] [(focus, 0)] out
        (List.mem_singleton_self focus) (by show (1 : Nat) < maxVis; omega) hb
      exact h

theorem GraphState.visible_focus_aux (maxVis : Nat) (V B : List NodeId)
    (focus : NodeId) (hmem : focus ∈ V) (hcap : V.length ≤ maxVis) :
    focus ∈ (if maxVis <
        (V.filter (fun v => v ∈ (if focus ∈ B then B else B ++ [focus]))).length
      then (GraphState.sortIds
        (V.filter (fun v => v ∈ (if focus ∈ B then B else B ++ [focus])))).take
        maxVis
      else V.filter (fun v => v ∈ (if focus ∈ B then B else B ++ [focus]))) := by
  have hfB : focus ∈ (if focus ∈ B then B else B ++ [focus]) := by
    by_cases hb : focus ∈ B
    · rw [if_pos hb]; exact hb
    · rw [if_neg hb]; exact List.mem_append_right _ (List.mem_singleton_self _)
  have hlen : ¬ (maxVis <
      (V.filter (fun v => v ∈ (if focus ∈ B then B else B ++ [focus]))).length) :=
    Nat.not_lt.mpr (le_trans (List.length_filter_le _ _) hcap)
  rw [if_neg hlen]
  exact List.mem_filter.mpr ⟨hmem, decide_eq_true hfB⟩

/-- C7 counterexample: with `max_visible_nodes = 1` the BFS inserts a
neighbour before checking the cap, the visible set reaches size 2, and the
final lexicographic truncation drops the focused node — so "focus itself is
always included in the result" fails for this state. -/
theorem C7_counterexample :
    c7CapState.ui.focus = some "b" ∧
    "b" ∉ c7CapState.visible_set_capped ∧
    c7CapState.visible_set_capped = ["a"] := by decide

/-- C7 (amended): on the path graph A–B–C–D with `focus = A`,
`focus_hops = 2`, `max_visible_nodes = 10` and an empty filter the visible
set is exactly `{A, B, C}`; and whenever a focus is set and
`max_visible_nodes ≥ 2` (the UI keeps it ≥ 200), the focused node is a
member of `visible_set_capped`. -/
theorem C7_focus_bfs :
    GraphState.visible_set_capped bfsScenario = ["A", "B", "C"] ∧
    (∀ (st : GraphState) (focus : NodeId),
      st.ui.focus = some focus → 2 ≤ st.cfg.max_visible_nodes →
      focus ∈ st.visible_set_capped) := by
  refine ⟨by decide, ?_⟩
  intro st focus hf hcap
  have hV := GraphState.bfsFrom_focus_mem_cap st.model st.cfg.max_visible_nodes
    (max st.ui.focus_hops 1) focus hcap
  have hgoal := GraphState.visible_focus_aux st.cfg.max_visible_nodes
    (GraphState.bfsFrom st.model st.cfg.max_visible_nodes
      (max st.ui.focus_hops 1) focus)
    ((st.model.nodes.filter (fun p => st.passes_filter p.1 p.2)).map Prod.fst)
    focus hV.1 hV.2
  unfold GraphState.visible_set_capped
  rw [hf]
  exact hgoal

/-- C7 witness: the focus-membership half applied to the scenario state. -/
theorem C7_focus_bfs_witness : "A" ∈ bfsScenario.visible_set_capped :=
  C7_focus_bfs.2 bfsScenario "A" (by decide) (by decide)

/-! ### C1 and C2: endpoint closure, removal completeness, aggregation -/

/-- C1 counterexample: `GraphState::apply_delta` applies `UpsertEdge`
without any endpoint check, so one `UpsertEdge` against the default (empty)
viewer state yields a reachable state whose raw edge set contains an edge
although neither endpoint exists in `nodes` — the claim's endpoint-closure
half fails as stated. -/
theorem C1_counterexample :
    ({ src := "x", dst := "y", kind := .execs } : Edge) ∈
      (GraphState.default.apply_delta 0
        (.upsertEdge { src := "x", dst := "y", kind := .execs })).model.edges ∧
    lookupA (GraphState.default.apply_delta 0
        (.upsertEdge { src := "x", dst := "y", kind := .execs })).model.nodes "x" =
      none := by decide

/-- C1 (amended): endpoint closure holds for every trace whose `UpsertEdge`
deltas arrive with both endpoints present and whose snapshots are
internally closed (`TraceOk`); and — unconditionally, for every reachable
state — removing a node removes every incident edge from the raw set, from
the adjacency index, and from the aggregated index together with it. -/
theorem C1_closure_guarded_removal_complete :
    (∀ ops : List (Nat × GraphState.Inc),
      GraphState.TraceOk GraphState.default ops →
      GraphModel.EndpointClosed (GraphState.default.applyTrace ops).model) ∧
    (∀ (ops : List (Nat × GraphState.Inc)) (ts : Nat) (id : NodeId),
      (∀ x ∈ ((GraphState.default.applyTrace ops).apply_delta ts
          (.removeNode id)).model.edges, x.src ≠ id ∧ x.dst ≠ id) ∧
      ((GraphState.default.applyTrace ops).apply_delta ts
          (.removeNode id)).model.adjList id = [] ∧
      (∀ k : AggEdgeKey, k.src = id ∨ k.dst = id →
        lookupA ((GraphState.default.applyTrace ops).apply_delta ts
            (.removeNode id)).model.agg k = none)) := by
  constructor
  · intro ops hT
    refine GraphState.closed_applyTrace ops GraphState.default
      GraphModel.Inv_empty ?_ hT
    intro e he
    exact absurd he (List.not_mem_nil e)
  · intro ops ts id
    rw [GraphState.model_apply_removeNode]
    obtain ⟨_, h2, h3, h4, _, _⟩ :=
      GraphModel.remove_node_spec _ id (GraphState.Inv_reachable ops)
    exact ⟨h2, h3, h4⟩

/-- C1 witness: the guarded-closure half applied to a concrete three-step
trace (two node upserts, then an edge between them). -/
theorem C1_closure_guarded_removal_complete_witness :
    GraphModel.EndpointClosed
      (GraphState.default.applyTrace
        [(0, .event (.upsertNode "A" (.file "/A" 1 .regular))),
         (0, .event (.upsertNode "B" (.file "/B" 2 .regular))),
         (1, .event (.upsertEdge (pathEdge "A" "B")))]).model :=
  C1_closure_guarded_removal_complete.1
    [(0, .event (.upsertNode "A" (.file "/A" 1 .regular))),
     (0, .event (.upsertNode "B" (.file "/B" 2 .regular))),
     (1, .event (.upsertEdge (pathEdge "A" "B")))]
    ⟨trivial, trivial, ⟨by decide, by decide⟩, trivial⟩

/-- C2: every `GraphModel` operation preserves the aggregation invariant —
each present aggregated entry has `live_count` equal to the (positive)
number of raw edges matching its `(from, to, class)` key, and an entry is
absent exactly when that count is zero (so it is deleted when the count
returns to 0); the invariant holds of the empty model; and upserting the
same `Opens{fd=3, mode="r"}` edge from P to F three times yields exactly
one aggregated entry with `count = 3`, `live_count = 1`, class `Opens`. -/
theorem C2_agg_live_count_invariant :
    (∀ m : GraphModel, GraphModel.Inv m →
      ∀ (e : Edge) (id : NodeId) (n : Node) (nodes : List (NodeId × Node))
        (edges : List Edge) (now : Nat),
        GraphModel.AggOkFor (m.upsert_edge e now).agg (m.upsert_edge e now).edges ∧
        GraphModel.AggOkFor (m.remove_edge e).1.agg (m.remove_edge e).1.edges ∧
        GraphModel.AggOkFor (m.upsert_node id n now).agg
          (m.upsert_node id n now).edges ∧
        GraphModel.AggOkFor (m.remove_node id).1.agg (m.remove_node id).1.edges ∧
        GraphModel.AggOkFor (m.load_snapshot nodes edges now).agg
          (m.load_snapshot nodes edges now).edges) ∧
    GraphModel.AggOkFor GraphModel.empty.agg GraphModel.empty.edges ∧
    aggScenario.agg =
      [({ src := "P", dst := "F", cls := .opens },
        { key := { src := "P", dst := "F", cls := .opens }
          stats := { count := 3, first_ts := 1, last_ts := 3 }
          last_kind := .opens 3 "r"
          live_count := 1 })] := by
  refine ⟨?_, GraphModel.Inv_empty.2.2, by decide⟩
  intro m hI e id n nodes edges now
  exact ⟨(GraphModel.Inv_upsert_edge m e now hI).2.2,
    (GraphModel.Inv_remove_edge m e hI).2.2,
    (GraphModel.Inv_upsert_node m id n now hI).2.2,
    (GraphModel.Inv_remove_node m id hI).2.2,
    (GraphModel.Inv_load_snapshot m nodes edges now).2.2⟩

/-- C2 witness: the preservation half applied to the empty model and the
scenario edge. -/
theorem C2_agg_live_count_invariant_witness :
    GraphModel.AggOkFor (GraphModel.empty.upsert_edge edgePF 0).agg
      (GraphModel.empty.upsert_edge edgePF 0).edges :=
  (C2_agg_live_count_invariant.1 GraphModel.empty GraphModel.Inv_empty edgePF
    "x" (Node.file "/x" 0 .regular) [] [] 0).1

/-- C6 witness: the amended trim bound at a concrete sorted buffer. -/
theorem C6_trim_caps_and_windows_witness :
    (let t : TimelineState :=
      { window := 10, max_events := 2, node_life := [], batch_spans := []
        events :=
          [{ ts := 1, kind := .nodeUpsert, a := none, b := none, edge_kind := none },
           { ts := 3, kind := .nodeUpsert, a := none, b := none, edge_kind := none },
           { ts := 20, kind := .nodeUpsert, a := none, b := none, edge_kind := none }] }
     (t.trim 25).events.length ≤ t.max_events ∧
     ∀ e ∈ (t.trim 25).events, 25 - e.ts ≤ t.window) :=
  C6_trim_caps_and_windows _ 25 (by decide)

end SpaceGraph
